import Mathlib

/-!
Verification of `src/cpu/jit_transpose_src_utils.cpp`.

The C++ file is a JIT code generator: at construction time it emits an
AVX-512 instruction stream that, when invoked, transposes a convolution
source tile.  We shallowly embed the *semantics of the generated code*:

* a 512-bit `Zmm` register holding 16 dword lanes is `Vec α := Fin 16 → α`;
* the lane-movement instructions used by the kernels (`valignd`,
  masked `vmovaps`, `vshuff32x4` / `vshuff64x2`, `vpermps`) are pure
  functions on `Vec`;
* the register-to-register part of each emitted tile is a `List RIns`
  of micro-instructions produced by Lean functions that mirror the C++
  emission functions statement by statement, executed by `execList`;
* the memory-visible behaviour of one kernel invocation is a `List Ev`
  of events (loads, stores with their predicate-mask lane count and
  data, prefetch hints, barrier rendezvous).  The machine-code loop of
  `jit_trans_iw_ic_t::generate` runs a construction-time-constant
  number of iterations, so it is modelled by the equally-long unrolled
  event list.  Memory is `Nat → ℤ` over 4-byte-element offsets and
  running the event list folds the masked stores over it.

Element units: `typesize = 4` bytes everywhere, so a byte address
`k * typesize` in the C++ is the element offset `k` here.  `ic_block`
is pinned to 16 by the construction-time asserts
(`assert(src_stride == 64)`, `assert(transpose_size == ic_block)`).
-/

/-- 16 dword lanes of a 512-bit Zmm register. -/
def Vec (α : Type) : Type := Fin 16 → α

/-- The Zmm register bank: `Zmm(i)` for `i < 32`.  `src_zmm i = Zmm i`,
`tmp_zmm i = Zmm (16 + i)` as in the C++. -/
def RegFile (α : Type) : Type := Nat → Vec α

/-- Write one register of the bank. -/
def setReg {α : Type} (f : RegFile α) (r : Nat) (v : Vec α) : RegFile α :=
  fun r2 => if r2 = r then v else f r2

/-- `valignd dst, a, b, imm`: right-shift the 32-dword concatenation
(`a` high, `b` low) by `imm` dwords and keep the low 16 lanes. -/
def valignd {α : Type} (a b : Vec α) (imm : Nat) : Vec α :=
  fun j =>
    let k := (j.val + imm) % 32
    if h : k < 16 then b ⟨k, h⟩ else a ⟨k - 16, by omega⟩

/-- Masked register move `vmovaps dst | k, src`: lane `j` takes `src j`
when bit `j` of the opmask word `m` is set, else keeps `dst j`. -/
def maskMov {α : Type} (m : Nat) (dst src : Vec α) : Vec α :=
  fun j => if m.testBit j.val then src j else dst j

/-- Unmasked `vshuff32x4` / `vshuff64x2` on 128-bit (4-lane) blocks:
result block `j` is block `(imm >>> 2*j) % 4` of `a` for `j < 2`, of `b`
for `j ≥ 2`.  (`vshuff64x2` moves pairs of qwords, which are exactly the
same 4-dword blocks.) -/
def shuff {α : Type} (a b : Vec α) (imm : Nat) : Vec α :=
  fun j =>
    let blk := j.val / 4
    let sel := (imm >>> (2 * blk)) % 4
    (if blk < 2 then a else b) ⟨sel * 4 + j.val % 4, by
      have h1 : sel < 4 := Nat.mod_lt _ (by omega)
      have h2 : j.val % 4 < 4 := Nat.mod_lt _ (by omega)
      omega⟩

/-- Masked variant of `shuff` (merge into `dst` under opmask `m`). -/
def shuffM {α : Type} (m : Nat) (dst a b : Vec α) (imm : Nat) : Vec α :=
  fun j => if m.testBit j.val then shuff a b imm j else dst j

/-- `vpermps dst, idx, src` with an index table: lane `j` takes lane
`idx j % 16` of `src`. -/
def vpermps {α : Type} (idx : Fin 16 → Nat) (v : Vec α) : Vec α :=
  fun j => v ⟨idx j % 16, Nat.mod_lt _ (by omega)⟩

/-- Register-to-register micro-instructions of the emitted code.
`rload dst row` is `vmovups(src_zmm(dst), [reg_src + row*src_stride])`;
`rpf` is a software prefetch hint (no architectural effect). -/
inductive RIns : Type where
  | rload (dst srcRow : Nat)
  | rvalignd (dst s1 s2 imm : Nat)
  | rmaskmov (m dst s : Nat)
  | rshuffM (m dst s1 s2 imm : Nat)
  | rcopy (dst s : Nat)
  | rpf
deriving DecidableEq

/-- Execute one micro-instruction; `load row` is the vector delivered by
the memory load of source row `row`. -/
def execIns {α : Type} (load : Nat → Vec α) (f : RegFile α) : RIns → RegFile α
  | .rload d r => setReg f d (load r)
  | .rvalignd d s1 s2 imm => setReg f d (valignd (f s1) (f s2) imm)
  | .rmaskmov m d s => setReg f d (maskMov m (f d) (f s))
  | .rshuffM m d s1 s2 imm => setReg f d (shuffM m (f d) (f s1) (f s2) imm)
  | .rcopy d s => setReg f d (f s)
  | .rpf => f

/-- Execute a micro-instruction sequence. -/
def execList {α : Type} (load : Nat → Vec α) (l : List RIns) (f : RegFile α) :
    RegFile α :=
  l.foldl (execIns load) f

/-- Concatenate `g 0 ++ g 1 ++ ... ++ g (n-1)` (a C++ `for` loop that
appends emitted code). -/
def catMap {β : Type} (n : Nat) (g : Nat → List β) : List β :=
  (List.range n).foldr (fun i acc => g i ++ acc) []

theorem catMap_zero {β : Type} (g : Nat → List β) : catMap 0 g = [] := rfl

theorem catMap_succ {β : Type} (n : Nat) (g : Nat → List β) :
    catMap (n + 1) g = catMap n g ++ g n := by
  simp only [catMap, List.range_succ, List.foldr_append, List.foldr_cons,
    List.foldr_nil, List.append_nil]
  induction (List.range n) with
  | nil => rfl
  | cons x xs ih => simp only [List.foldr_cons, ih, List.append_assoc]

namespace JitTransIwIc

/-! ### `jit_trans_iw_ic_t::transpose` — the 16×16 register network

The micro-instruction streams of `transpose16x8(0)`, `transpose16x8(8)`
and the `vshuff64x2` stage of `fixup16x16`.  `ep` is the
`enable_prefetch` member. -/

/-- One iteration `i` of the "swap 1" loop of `transpose16x8`. -/
def swap1ins (ep : Bool) (nrows base i : Nat) : List RIns :=
  let src_idx0 := base + i * 2
  let src_idx1 := src_idx0 + 1
  let next_src_idx0 := src_idx0 + 2
  let next_src_idx1 := src_idx1 + 2
  let load_next : Prop := base = 0 ∨ i < 3
  (if base = 0 ∧ i = 0 then [.rload src_idx0 src_idx0, .rload src_idx1 src_idx1]
    else [])
  ++ (if next_src_idx0 < nrows ∧ load_next then [.rload next_src_idx0 next_src_idx0]
    else [])
  ++ [.rvalignd (16 + src_idx0) src_idx0 src_idx0 0x1]
  ++ (if ep then [.rpf] else [])
  ++ (if next_src_idx1 < nrows ∧ load_next then [.rload next_src_idx1 next_src_idx1]
    else [])
  ++ [.rvalignd (16 + src_idx1) src_idx1 src_idx1 0xf]
  ++ (if ep then [.rpf] else [])
  ++ [.rmaskmov 0xaaaa src_idx0 (16 + src_idx1),
      .rmaskmov 0x5555 src_idx1 (16 + src_idx0)]

/-- One iteration `i` of the "swap 2" loop of `transpose16x8`. -/
def swap2ins (ep : Bool) (base i : Nat) : List RIns :=
  let select_half := if i < 2 then 0 else 2
  let src_idx0 := base + i + select_half
  let src_idx2 := src_idx0 + 2
  [.rvalignd (16 + src_idx0) src_idx0 src_idx0 0x2]
  ++ (if ep then [.rpf] else [])
  ++ [.rvalignd (16 + src_idx2) src_idx2 src_idx2 0xe]
  ++ (if ep then [.rpf] else [])
  ++ [.rmaskmov 0x3333 src_idx2 (16 + src_idx0),
      .rmaskmov 0xcccc src_idx0 (16 + src_idx2)]

/-- One iteration `i` of the "swap 4" loop of `transpose16x8`
(`pf_tr_src_t0` issues two `prefetcht0` instructions). -/
def swap4ins (ep : Bool) (base i : Nat) : List RIns :=
  let src_idx0 := base + i
  let src_idx4 := src_idx0 + 4
  [.rcopy (16 + src_idx0) src_idx0,
   .rshuffM 0xf0f0 src_idx0 src_idx4 src_idx4 0xb1]
  ++ (if ep then [.rpf] else [])
  ++ [.rshuffM 0x0f0f src_idx4 (16 + src_idx0) (16 + src_idx0) 0xb1]
  ++ (if ep then [.rpf, .rpf] else [])

/-- The instruction stream of `transpose16x8(base_idx)`. -/
def transpose16x8ins (ep : Bool) (nrows base : Nat) : List RIns :=
  catMap 4 (swap1ins ep nrows base)
  ++ catMap 4 (swap2ins ep base)
  ++ catMap 4 (swap4ins ep base)

/-- The register-to-register stream executed before `fixup16x16`
stores: `transpose16x8(0); transpose16x8(8)`. -/
def tileIns (ep : Bool) (nrows : Nat) : List RIns :=
  transpose16x8ins ep nrows 0 ++ transpose16x8ins ep nrows 8

/-- Register bank after both `transpose16x8` calls. -/
def tileRegs {α : Type} (ep : Bool) (nrows : Nat) (load : Nat → Vec α)
    (f : RegFile α) : RegFile α :=
  execList load (tileIns ep nrows) f

/-- The vector passed to `store(tmp, i)` by `fixup16x16`: rows `0..7`
come from `vshuff64x2(tmp, src0, src8, 0x44)`, rows `8..15` from
`vshuff64x2(tmp, src0, src8, 0xee)` with `src0 = src_zmm(i-8)`,
`src8 = src_zmm(i)`. -/
def tileOut {α : Type} (ep : Bool) (nrows : Nat) (load : Nat → Vec α)
    (f : RegFile α) (i : Nat) : Vec α :=
  let g := tileRegs ep nrows load f
  if i < 8 then shuff (g i) (g (8 + i)) 0x44
  else shuff (g (i - 8)) (g (8 + (i - 8))) 0xee

end JitTransIwIc

/-! ### Network correctness via value tokens

Every instruction only moves lanes, so the network is natural in the
lane values.  We check the network exhaustively on distinguishable
tokens and transport the result to arbitrary values. -/

/-- Lane tokens: `(false, r, c)` is the initial content of lane `c` of
register `r`; `(true, i, c)` is lane `c` of the vector loaded by
`load i`. -/
abbrev Tok : Type := Bool × Nat × Nat

def tokLoad : Nat → Vec Tok := fun i c => (true, i, c.val)

def tokF : RegFile Tok := fun r c => (false, r, c.val)

/-- Map a function over every lane of a vector. -/
def mapVec {α β : Type} (g : α → β) (v : Vec α) : Vec β := fun j => g (v j)

/-- Map a function over every lane of the register bank. -/
def mapRF {α β : Type} (g : α → β) (f : RegFile α) : RegFile β :=
  fun r => mapVec g (f r)

theorem mapRF_apply {α β : Type} (g : α → β) (f : RegFile α) (r : Nat) :
    mapRF g f r = mapVec g (f r) := rfl

theorem mapVec_valignd {α β : Type} (g : α → β) (a b : Vec α) (imm : Nat) :
    mapVec g (valignd a b imm) = valignd (mapVec g a) (mapVec g b) imm := by
  funext j
  simp only [mapVec, valignd]
  split <;> rfl

theorem mapVec_maskMov {α β : Type} (g : α → β) (m : Nat) (d s : Vec α) :
    mapVec g (maskMov m d s) = maskMov m (mapVec g d) (mapVec g s) := by
  funext j
  simp only [mapVec, maskMov]
  split <;> rfl

theorem mapVec_shuff {α β : Type} (g : α → β) (a b : Vec α) (imm : Nat) :
    mapVec g (shuff a b imm) = shuff (mapVec g a) (mapVec g b) imm := by
  funext j
  simp only [mapVec, shuff]
  split <;> rfl

theorem mapVec_shuffM {α β : Type} (g : α → β) (m : Nat) (d a b : Vec α) (imm : Nat) :
    mapVec g (shuffM m d a b imm) = shuffM m (mapVec g d) (mapVec g a) (mapVec g b) imm := by
  funext j
  simp only [mapVec, shuffM]
  split
  · exact congrFun (mapVec_shuff g a b imm) j
  · rfl

theorem mapVec_vpermps {α β : Type} (g : α → β) (idx : Fin 16 → Nat) (v : Vec α) :
    mapVec g (vpermps idx v) = vpermps idx (mapVec g v) := rfl

theorem mapRF_setReg {α β : Type} (g : α → β) (f : RegFile α) (r : Nat) (v : Vec α) :
    mapRF g (setReg f r v) = setReg (mapRF g f) r (mapVec g v) := by
  funext r2
  simp only [mapRF, setReg]
  split <;> rfl

theorem mapRF_execIns {α β : Type} (g : α → β) (load : Nat → Vec α)
    (f : RegFile α) (ins : RIns) :
    mapRF g (execIns load f ins) =
      execIns (fun r => mapVec g (load r)) (mapRF g f) ins := by
  cases ins <;>
    simp only [execIns, mapRF_setReg, mapVec_valignd, mapVec_maskMov,
      mapVec_shuffM, mapRF_apply]

theorem mapRF_execList {α β : Type} (g : α → β) (load : Nat → Vec α)
    (l : List RIns) (f : RegFile α) :
    mapRF g (execList load l f) =
      execList (fun r => mapVec g (load r)) l (mapRF g f) := by
  induction l generalizing f with
  | nil => rfl
  | cons x xs ih =>
      simp only [execList, List.foldl_cons] at *
      rw [ih, mapRF_execIns]

namespace JitTransIwIc

theorem mapVec_tileOut {α β : Type} (g : α → β) (ep : Bool) (nrows : Nat)
    (load : Nat → Vec α) (f : RegFile α) (i : Nat) :
    mapVec g (tileOut ep nrows load f i) =
      tileOut ep nrows (fun r => mapVec g (load r)) (mapRF g f) i := by
  simp only [tileOut, tileRegs]
  have h := mapRF_execList g load (tileIns ep nrows) f
  split <;> rw [mapVec_shuff, ← h] <;> rfl

/-! #### Prefetch hints do not change register results -/

theorem execList_append {α : Type} (load : Nat → Vec α) (l1 l2 : List RIns)
    (f : RegFile α) :
    execList load (l1 ++ l2) f = execList load l2 (execList load l1 f) := by
  simp only [execList, List.foldl_append]

theorem execList_nil {α : Type} (load : Nat → Vec α) (f : RegFile α) :
    execList load [] f = f := rfl

theorem execList_pfs {α : Type} (load : Nat → Vec α) (ep : Bool)
    (f : RegFile α) :
    execList load (if ep then [RIns.rpf] else []) f = f := by
  cases ep <;> rfl

theorem execList_pfs2 {α : Type} (load : Nat → Vec α) (ep : Bool)
    (f : RegFile α) :
    execList load (if ep then [RIns.rpf, RIns.rpf] else []) f = f := by
  cases ep <;> rfl

theorem execList_swap1ins {α : Type} (load : Nat → Vec α) (ep : Bool)
    (nrows base i : Nat) (f : RegFile α) :
    execList load (swap1ins ep nrows base i) f =
      execList load (swap1ins false nrows base i) f := by
  simp only [swap1ins, execList_append, execList_pfs, execList_nil,
    Bool.false_eq_true, if_false]

theorem execList_swap2ins {α : Type} (load : Nat → Vec α) (ep : Bool)
    (base i : Nat) (f : RegFile α) :
    execList load (swap2ins ep base i) f =
      execList load (swap2ins false base i) f := by
  simp only [swap2ins, execList_append, execList_pfs, execList_nil,
    Bool.false_eq_true, if_false]

theorem execList_swap4ins {α : Type} (load : Nat → Vec α) (ep : Bool)
    (base i : Nat) (f : RegFile α) :
    execList load (swap4ins ep base i) f =
      execList load (swap4ins false base i) f := by
  simp only [swap4ins, execList_append, execList_pfs, execList_pfs2,
    execList_nil, Bool.false_eq_true, if_false]

theorem execList_catMap_congr {α : Type} (load : Nat → Vec α) (n : Nat)
    (g1 g2 : Nat → List RIns)
    (h : ∀ i (f : RegFile α), execList load (g1 i) f = execList load (g2 i) f) :
    ∀ f : RegFile α, execList load (catMap n g1) f = execList load (catMap n g2) f := by
  induction n with
  | zero => intro f; rfl
  | succ n ih =>
      intro f
      simp only [catMap_succ, execList_append, ih, h]

theorem tileRegs_ep {α : Type} (ep : Bool) (nrows : Nat) (load : Nat → Vec α)
    (f : RegFile α) :
    tileRegs ep nrows load f = tileRegs false nrows load f := by
  simp only [tileRegs, tileIns, transpose16x8ins, execList_append]
  rw [execList_catMap_congr load 4 _ _ (fun i f => execList_swap1ins load ep nrows 0 i f),
    execList_catMap_congr load 4 _ _ (fun i f => execList_swap2ins load ep 0 i f),
    execList_catMap_congr load 4 _ _ (fun i f => execList_swap4ins load ep 0 i f),
    execList_catMap_congr load 4 _ _ (fun i f => execList_swap1ins load ep nrows 8 i f),
    execList_catMap_congr load 4 _ _ (fun i f => execList_swap2ins load ep 8 i f),
    execList_catMap_congr load 4 _ _ (fun i f => execList_swap4ins load ep 8 i f)]

theorem tileOut_ep {α : Type} (ep : Bool) (nrows : Nat) (load : Nat → Vec α)
    (f : RegFile α) (i : Nat) :
    tileOut ep nrows load f i = tileOut false nrows load f i := by
  simp only [tileOut, tileRegs_ep]

/-- The token statement of the network check, one `nrows` at a time. -/
abbrev tokProp (n : Nat) : Prop :=
  ∀ (o l : Fin 16), l.val < n →
    tileOut false n tokLoad tokF o.val l = (true, l.val, o.val)

set_option maxRecDepth 100000 in
theorem tileOutTok0 : tokProp 0 := by decide
set_option maxRecDepth 100000 in
theorem tileOutTok1 : tokProp 1 := by decide
set_option maxRecDepth 100000 in
theorem tileOutTok2 : tokProp 2 := by decide
set_option maxRecDepth 100000 in
theorem tileOutTok3 : tokProp 3 := by decide
set_option maxRecDepth 100000 in
theorem tileOutTok4 : tokProp 4 := by decide
set_option maxRecDepth 100000 in
theorem tileOutTok5 : tokProp 5 := by decide
set_option maxRecDepth 100000 in
theorem tileOutTok6 : tokProp 6 := by decide
set_option maxRecDepth 100000 in
theorem tileOutTok7 : tokProp 7 := by decide
set_option maxRecDepth 100000 in
theorem tileOutTok8 : tokProp 8 := by decide
set_option maxRecDepth 100000 in
theorem tileOutTok9 : tokProp 9 := by decide
set_option maxRecDepth 100000 in
theorem tileOutTok10 : tokProp 10 := by decide
set_option maxRecDepth 100000 in
theorem tileOutTok11 : tokProp 11 := by decide
set_option maxRecDepth 100000 in
theorem tileOutTok12 : tokProp 12 := by decide
set_option maxRecDepth 100000 in
theorem tileOutTok13 : tokProp 13 := by decide
set_option maxRecDepth 100000 in
theorem tileOutTok14 : tokProp 14 := by decide
set_option maxRecDepth 100000 in
theorem tileOutTok15 : tokProp 15 := by decide
set_option maxRecDepth 100000 in
theorem tileOutTok16 : tokProp 16 := by decide

/-- Exhaustive check of the 16×16 network on tokens: for every
`nrows ≤ 16` and every output row `o` and lane `l < nrows`, the vector
stored for row `o` holds, at lane `l`, lane `o` of the vector loaded
from source row `l`. -/
theorem tileOut_tok (n : Nat) (hn : n ≤ 16) : tokProp n := by
  interval_cases n
  · exact tileOutTok0
  · exact tileOutTok1
  · exact tileOutTok2
  · exact tileOutTok3
  · exact tileOutTok4
  · exact tileOutTok5
  · exact tileOutTok6
  · exact tileOutTok7
  · exact tileOutTok8
  · exact tileOutTok9
  · exact tileOutTok10
  · exact tileOutTok11
  · exact tileOutTok12
  · exact tileOutTok13
  · exact tileOutTok14
  · exact tileOutTok15
  · exact tileOutTok16

/-- The 16×16 register transpose: output row `o`, lane `l` is lane `o`
of the vector loaded for source row `l`, for every row `l < nrows`,
independent of the previous register contents. -/
theorem tileOut_correct {α : Type} (ep : Bool) (nrows : Nat) (h16 : nrows ≤ 16)
    (load : Nat → Vec α) (f : RegFile α) (o l : Nat)
    (ho : o < 16) (hl : l < nrows) :
    tileOut ep nrows load f o ⟨l, by omega⟩ = load l ⟨o, ho⟩ := by
  classical
  rw [tileOut_ep]
  let g : Tok → α := fun t =>
    if h : t.2.2 < 16 then
      (if t.1 then load t.2.1 ⟨t.2.2, h⟩ else f t.2.1 ⟨t.2.2, h⟩)
    else load 0 0
  have hload : (fun r => mapVec g (tokLoad r)) = load := by
    funext r c
    simp only [mapVec, tokLoad, g, c.isLt, dite_true, if_true, dif_pos]
  have hf : mapRF g tokF = f := by
    funext r c
    simp only [mapRF, mapVec, tokF, g, c.isLt, dif_pos, if_false, Bool.false_eq_true]
  have key := mapVec_tileOut g false nrows tokLoad tokF o
  rw [hload, hf] at key
  have htok := tileOut_tok nrows h16 ⟨o, ho⟩ ⟨l, by omega⟩ hl
  calc tileOut false nrows load f o ⟨l, by omega⟩
      = mapVec g (tileOut false nrows tokLoad tokF o) ⟨l, by omega⟩ := by rw [key]
    _ = g (true, l, o) := by
        simp only [mapVec]
        rw [htok]
    _ = load l ⟨o, ho⟩ := by simp [g, ho]

end JitTransIwIc

/-! ### Memory-visible events of one kernel invocation

Addresses are element (4-byte) offsets into the source, respectively
destination, buffer.  A masked store with predicate `(1 << m) - 1`
(loaded through `kmovw`, hence truncated to 16 bits) writes lanes
`< min m 16`. -/

inductive Ev : Type where
  | load (off cnt : Nat)
  | store (off m : Nat) (data : Vec ℤ)
  | pf
  | barrier (nthr : Nat)

/-- The value, if any, an event writes at address `a`. -/
def evWrites : Ev → Nat → Option ℤ
  | .store off m d, a =>
      if h : off ≤ a ∧ a < off + min m 16 then some (d ⟨a - off, by omega⟩)
      else none
  | _, _ => none

/-- Apply one event to memory. -/
def applyEv (mem : Nat → ℤ) (e : Ev) : Nat → ℤ :=
  fun a => (evWrites e a).getD (mem a)

/-- Memory after running an event list (earlier events first). -/
def runEvs (l : List Ev) (mem : Nat → ℤ) : Nat → ℤ :=
  l.foldl applyEv mem

/-- Combine two optional writes, the second (later) one winning. -/
def olast (x y : Option ℤ) : Option ℤ :=
  match y with
  | some v => some v
  | none => x

/-- The last write an event list performs at address `a`. -/
def lastWrite : List Ev → Nat → Option ℤ
  | [], _ => none
  | e :: t, a => olast (evWrites e a) (lastWrite t a)

theorem olast_none_left (y : Option ℤ) : olast none y = y := by
  cases y <;> rfl

theorem olast_none_right (x : Option ℤ) : olast x none = x := rfl

theorem olast_some (x : Option ℤ) (v : ℤ) : olast x (some v) = some v := rfl

theorem olast_assoc (x y z : Option ℤ) :
    olast (olast x y) z = olast x (olast y z) := by
  cases z <;> cases y <;> rfl

theorem lastWrite_nil (a : Nat) : lastWrite [] a = none := rfl

theorem lastWrite_cons (e : Ev) (t : List Ev) (a : Nat) :
    lastWrite (e :: t) a = olast (evWrites e a) (lastWrite t a) := rfl

theorem lastWrite_append (l1 l2 : List Ev) (a : Nat) :
    lastWrite (l1 ++ l2) a = olast (lastWrite l1 a) (lastWrite l2 a) := by
  induction l1 with
  | nil => simp only [List.nil_append, lastWrite_nil, olast_none_left]
  | cons e t ih =>
      simp only [List.cons_append, lastWrite_cons, ih, olast_assoc]

/-- Running the events computes, at each address, the last write if
there is one and the initial contents otherwise. -/
theorem runEvs_eq (l : List Ev) (mem : Nat → ℤ) (a : Nat) :
    runEvs l mem a = (lastWrite l a).getD (mem a) := by
  induction l generalizing mem with
  | nil => rfl
  | cons e t ih =>
      simp only [runEvs, List.foldl_cons, lastWrite_cons] at *
      rw [ih]
      cases h : lastWrite t a with
      | some v => simp only [olast_some, Option.getD_some]
      | none => simp only [olast_none_right, Option.getD_none, applyEv]

theorem lastWrite_catMap_none (n : Nat) (g : Nat → List Ev) (a : Nat)
    (h : ∀ j, j < n → lastWrite (g j) a = none) :
    lastWrite (catMap n g) a = none := by
  induction n with
  | zero => rfl
  | succ n ih =>
      rw [catMap_succ, lastWrite_append, ih (fun j hj => h j (by omega)),
        h n (by omega)]
      rfl

theorem lastWrite_catMap_single (n : Nat) (g : Nat → List Ev) (a : Nat)
    (i : Nat) (hi : i < n)
    (h : ∀ j, j < n → j ≠ i → lastWrite (g j) a = none) :
    lastWrite (catMap n g) a = lastWrite (g i) a := by
  induction n with
  | zero => omega
  | succ n ih =>
      rw [catMap_succ, lastWrite_append]
      by_cases hin : i = n
      · rw [lastWrite_catMap_none n g a (fun j hj => h j (by omega) (by omega)),
          olast_none_left, hin]
      · rw [h n (by omega) (fun hc => hin hc.symm), olast_none_right,
          ih (by omega) (fun j hj hji => h j (by omega) hji)]

theorem evWrites_load (off cnt a : Nat) : evWrites (.load off cnt) a = none := rfl

theorem evWrites_pf (a : Nat) : evWrites .pf a = none := rfl

theorem evWrites_barrier (n a : Nat) : evWrites (.barrier n) a = none := rfl

/-- Events derived from a micro-instruction stream: the memory loads
(`vmovups(src_zmm(i), [reg_src + row*src_stride])`, `src_stride = 64`
bytes = 16 elements) and prefetch hints, in emission order. -/
def insEvs (so : Nat) : List RIns → List Ev
  | [] => []
  | i :: t =>
      (match i with
        | .rload _ row => [Ev.load (so + row * 16) 16]
        | .rpf => [Ev.pf]
        | _ => []) ++ insEvs so t

theorem lastWrite_insEvs (so : Nat) (l : List RIns) (a : Nat) :
    lastWrite (insEvs so l) a = none := by
  induction l with
  | nil => rfl
  | cons i t ih =>
      cases i <;>
        simp only [insEvs, List.nil_append, List.cons_append, lastWrite_cons,
          ih, evWrites_load, evWrites_pf, olast_none_right]

theorem mem_insEvs (so : Nat) (l : List RIns) (e : Ev) (he : e ∈ insEvs so l) :
    (∃ d row, RIns.rload d row ∈ l ∧ e = .load (so + row * 16) 16) ∨
      (RIns.rpf ∈ l ∧ e = .pf) := by
  induction l with
  | nil => cases he
  | cons i t ih =>
      cases i with
      | rload d row =>
          rcases List.mem_append.1 he with h | h
          · rcases List.mem_singleton.1 h with rfl
            exact Or.inl ⟨d, row, List.mem_cons_self _ _, rfl⟩
          · rcases ih h with ⟨d2, r2, hm, rfl⟩ | ⟨hm, rfl⟩
            · exact Or.inl ⟨d2, r2, List.mem_cons_of_mem _ hm, rfl⟩
            · exact Or.inr ⟨List.mem_cons_of_mem _ hm, rfl⟩
      | rpf =>
          rcases List.mem_append.1 he with h | h
          · rcases List.mem_singleton.1 h with rfl
            exact Or.inr ⟨List.mem_cons_self _ _, rfl⟩
          · rcases ih h with ⟨d2, r2, hm, rfl⟩ | ⟨hm, rfl⟩
            · exact Or.inl ⟨d2, r2, List.mem_cons_of_mem _ hm, rfl⟩
            · exact Or.inr ⟨List.mem_cons_of_mem _ hm, rfl⟩
      | rvalignd d s1 s2 imm =>
          rcases ih he with ⟨d2, r2, hm, rfl⟩ | ⟨hm, rfl⟩
          · exact Or.inl ⟨d2, r2, List.mem_cons_of_mem _ hm, rfl⟩
          · exact Or.inr ⟨List.mem_cons_of_mem _ hm, rfl⟩
      | rmaskmov m d s =>
          rcases ih he with ⟨d2, r2, hm, rfl⟩ | ⟨hm, rfl⟩
          · exact Or.inl ⟨d2, r2, List.mem_cons_of_mem _ hm, rfl⟩
          · exact Or.inr ⟨List.mem_cons_of_mem _ hm, rfl⟩
      | rshuffM m d s1 s2 imm =>
          rcases ih he with ⟨d2, r2, hm, rfl⟩ | ⟨hm, rfl⟩
          · exact Or.inl ⟨d2, r2, List.mem_cons_of_mem _ hm, rfl⟩
          · exact Or.inr ⟨List.mem_cons_of_mem _ hm, rfl⟩
      | rcopy d s =>
          rcases ih he with ⟨d2, r2, hm, rfl⟩ | ⟨hm, rfl⟩
          · exact Or.inl ⟨d2, r2, List.mem_cons_of_mem _ hm, rfl⟩
          · exact Or.inr ⟨List.mem_cons_of_mem _ hm, rfl⟩

theorem pf_mem_insEvs (so : Nat) (l : List RIns) (hl : RIns.rpf ∈ l) :
    Ev.pf ∈ insEvs so l := by
  induction l with
  | nil => cases hl
  | cons i t ih =>
      rcases List.mem_cons.1 hl with rfl | hm
      · simp only [insEvs, List.cons_append, List.mem_cons]
        exact Or.inl trivial
      · cases i <;>
          exact List.mem_append.2 (Or.inr (ih hm))

theorem load_mem_insEvs (so : Nat) (l : List RIns) (d row : Nat)
    (hl : RIns.rload d row ∈ l) :
    Ev.load (so + row * 16) 16 ∈ insEvs so l := by
  induction l with
  | nil => cases hl
  | cons i t ih =>
      rcases List.mem_cons.1 hl with heq | hm
      · rw [← heq]
        simp only [insEvs, List.cons_append, List.mem_cons]
        exact Or.inl trivial
      · cases i <;>
          exact List.mem_append.2 (Or.inr (ih hm))

namespace JitTransIwIc

/-! ### `jit_trans_iw_ic_t::generate` — the emitted event stream -/

/-- Shape-descriptor fields the generic kernel reads
(`ic_block = transpose_size = 16` is pinned by asserts). -/
structure GCfg : Type where
  iw : Nat
  tr_iw : Nat
  l_pad : Nat

/-- `enum { ..., transpose_size = 16, small_spatial = 14 }`. -/
abbrev transpose_size : Nat := 16

abbrev small_spatial : Nat := 14

/-- The vector delivered by `load(i)` when `reg_src` sits at element
offset `so`: lane `c` is `src[so + i*16 + c]` (`src_stride = 64` bytes
= 16 elements). -/
def loadVec (src : Nat → ℤ) (so : Nat) : Nat → Vec ℤ :=
  fun i c => src (so + i * 16 + c.val)

/-- Events of one `store(r, i)` call, with `reg_tr_src` at element
offset `to`: the (possibly `kTail`-masked) data store at
`to + l_pad + i*tr_iw`, then the `r_pad` zero store at
`to + l_pad + tail + i*tr_iw`, then the `l_pad` zero store at
`to + i*tr_iw`.  `mask` is the lane count of the data store
(`tail` lanes when `nrows < 16`, else the full 16); the zero stores use
`(1 << pad) - 1` through 16-bit `kmovw`, hence `min pad 16` lanes. -/
def storeCall (c : GCfg) (out : Nat → Vec ℤ) (toff lp rp tailv mask i : Nat) :
    List Ev :=
  [.store (toff + lp + i * c.tr_iw) mask (out i)]
  ++ (if 0 < rp then
      [.store (toff + lp + tailv + i * c.tr_iw) (min rp 16) (fun _ => 0)] else [])
  ++ (if 0 < lp then
      [.store (toff + i * c.tr_iw) (min lp 16) (fun _ => 0)] else [])

/-- `fixup16x16`: sixteen `store` calls (rows `0..7` then `8..15`), with
`pf_tr_src_t1`/`pf_tr_src_t0` (three prefetches) after every second
store when prefetch is enabled. -/
def fixupEvs (c : GCfg) (ep : Bool) (out : Nat → Vec ℤ)
    (toff lp rp tailv mask : Nat) : List Ev :=
  catMap 8 (fun i =>
    storeCall c out toff lp rp tailv mask i
    ++ (if i % 2 = 0 ∧ ep = true then [.pf, .pf, .pf] else []))
  ++ catMap 8 (fun i =>
    storeCall c out toff lp rp tailv mask (8 + i)
    ++ (if i % 2 = 0 ∧ ep = true then [.pf, .pf, .pf] else []))

/-- Lane count of the data store in `store(r, i)`: the `kTail` mask
`(1 << tail) - 1` (16-bit) when `nrows < 16` (`partial_store`), else the
full unmasked 16 lanes. -/
def store_mask (nrows tailv : Nat) : Nat :=
  if nrows < 16 then min tailv 16 else 16

/-- All events of one `transpose(nrows, l_pad, r_pad, ...)` call with
the cursors `reg_src`/`reg_tr_src` at element offsets `so`/`to`
(`if (!nrows) return;`). -/
def tileEv (c : GCfg) (ep : Bool) (src : Nat → ℤ) (f : RegFile ℤ)
    (so toff nrows lp rp tailv : Nat) : List Ev :=
  if nrows = 0 then []
  else
    insEvs so (tileIns ep nrows)
    ++ fixupEvs c ep (tileOut ep nrows (loadVec src so) f) toff lp rp tailv
        (store_mask nrows tailv)

/-- Register bank left behind by one `transpose` call: the two
`transpose16x8` passes write `Zmm 0..31`; `fixup16x16` then rewrites
each `tmp_zmm i = Zmm (16+i)` with the stored vector, which `padding`
zeroes again (`vpxord`) whenever a left or right pad store follows. -/
def tileAfter (ep : Bool) (nrows lp rp : Nat) (load : Nat → Vec ℤ)
    (f : RegFile ℤ) : RegFile ℤ :=
  if nrows = 0 then f
  else fun r =>
    if 16 ≤ r ∧ r < 32 then
      (if 0 < rp ∨ 0 < lp then (fun _ => 0)
       else tileOut ep nrows load f (r - 16))
    else tileRegs ep nrows load f r

/-- The tile sequence after the optional left-pad tile: `n` full
16-row tiles (the `L("loop")` body, `src_step = 256`,
`tr_src_step = 16` elements) followed by the final
`transpose(tail, 0, right_pad)` call. -/
def chain (c : GCfg) (ep : Bool) (src : Nat → ℤ) (tailv rp : Nat) :
    Nat → Nat → Nat → RegFile ℤ → List Ev
  | 0, so, toff, f => tileEv c ep src f so toff tailv 0 rp tailv
  | n + 1, so, toff, f =>
      tileEv c ep src f so toff 16 0 0 tailv
      ++ chain c ep src tailv rp n (so + 256) (toff + 16)
          (tileAfter ep 16 0 0 (loadVec src so) f)

/-- `transposes = div_up(iw, transpose_size)` and
`loop_iters = max(0, transposes - 1)`. -/
def loop_iters (c : GCfg) : Nat :=
  (c.iw + transpose_size - 1) / transpose_size - 1

/-- `tail = iw - loop_iters * transpose_size`. -/
def tailOf (c : GCfg) : Nat := c.iw - loop_iters c * transpose_size

/-- `right_pad = tr_iw - iw - left_pad` (all stores guard on
`pad > 0`, so the `Nat` truncation of a negative value is faithful). -/
def right_pad (c : GCfg) : Nat := c.tr_iw - c.iw - c.l_pad

/-- `enable_prefetch = iw > small_spatial`. -/
def enable_prefetch (c : GCfg) : Bool := decide (small_spatial < c.iw)

/-- The full event stream of one invocation of the generated code of
`jit_trans_iw_ic_t::generate`, with `reg_src = 0` and `reg_tr_src = 0`
as buffer-relative element offsets: the special left-pad tile (which
consumes one loop iteration), the `L("loop")` tiles, and the final
`transpose(tail, ...)` call. -/
def generate (c : GCfg) (src : Nat → ℤ) (f0 : RegFile ℤ) : List Ev :=
  if 0 < c.l_pad ∧ 0 < loop_iters c then
    tileEv c (enable_prefetch c) src f0 0 0 16 c.l_pad 0 (tailOf c)
    ++ chain c (enable_prefetch c) src (tailOf c) (right_pad c)
        (loop_iters c - 1) 256 (16 + c.l_pad)
        (tileAfter (enable_prefetch c) 16 c.l_pad 0 (loadVec src 0) f0)
  else if 0 < loop_iters c then
    chain c (enable_prefetch c) src (tailOf c) (right_pad c)
      (loop_iters c) 0 0 f0
  else
    tileEv c (enable_prefetch c) src f0 0 0 (tailOf c) c.l_pad (right_pad c)
      (tailOf c)

/-- Destination memory after one invocation of the generic transpose
kernel. -/
def runGeneric (c : GCfg) (src : Nat → ℤ) (f0 : RegFile ℤ)
    (m0 : Nat → ℤ) : Nat → ℤ :=
  runEvs (generate c src f0) m0

end JitTransIwIc

namespace JitTransIwX4

/-! ### `jit_trans_iw_x4_4x_t::generate` — the first-layer kernel -/

/-- Shape-descriptor fields the first-layer kernel reads. -/
structure X4Cfg : Type where
  iw : Nat
  tr_ld : Nat
  stride_w : Nat

/-- `cpu_isa_traits<avx512_common>::vlen / typesize = 64 / 4`. -/
abbrev simd_w : Nat := 16

/-- `niters = c.tr_ld / simd_w` (asserted `≤ 4`). -/
def niters (c : X4Cfg) : Nat := c.tr_ld / simd_w

/-- The static gather table loaded into `vmsk`:
`{0,4,8,12, 1,5,9,13, 2,6,10,14, 3,7,11,15}`. -/
def gmask : Fin 16 → Nat :=
  ![0, 4, 8, 12, 1, 5, 9, 13, 2, 6, 10, 14, 3, 7, 11, 15]

/-- The vector in `vreg(iter, i)` after `emit_load(iter)` with
`reg_ptr_src` at element offset `so`: a full load when the 16 lanes fit
in `iw`, a `kmsk`-masked zero-filling load (`v | kmsk | T_z`, mask
`(1 << (iw % 16)) - 1`) when the tile is partially inside, and
`vpxord`-zero when fully beyond. -/
def loadVal (c : X4Cfg) (src : Nat → ℤ) (so iter i : Nat) : Vec ℤ :=
  let off := (iter * 4 + i) * simd_w
  if off + simd_w ≤ c.iw then (fun l => src (so + off + l.val))
  else if off < c.iw then
    (fun l => if l.val < c.iw % simd_w then src (so + off + l.val) else 0)
  else (fun _ => 0)

/-- `emit_tr(iter)`: `vpermps` each register by the gather table, then
the two-stage `vshuff32x4` network. -/
def emit_tr {α : Type} (v : Nat → Vec α) : Nat → Vec α :=
  let p : Nat → Vec α := fun i => vpermps gmask (v i)
  let t0 := shuff (p 0) (p 1) 0x88
  let t1 := shuff (p 0) (p 1) 0xdd
  let t2 := shuff (p 2) (p 3) 0x88
  let t3 := shuff (p 2) (p 3) 0xdd
  fun i =>
    if i = 0 then shuff t0 t2 0x88
    else if i = 2 then shuff t0 t2 0xdd
    else if i = 1 then shuff t1 t3 0x88
    else shuff t1 t3 0xdd

/-- `vreg(iter, i)` as stored by `emit_store`. -/
def trOut (c : X4Cfg) (src : Nat → ℤ) (so iter : Nat) : Nat → Vec ℤ :=
  emit_tr (fun i => loadVal c src so iter i)

/-- Load events of `emit_load(iter)` for `iter < niters`; a masked load
touches only its `iw % 16` enabled lanes and a fully-outside tile
touches no memory (`vpxord`). -/
def loadEvs (c : X4Cfg) (so : Nat) : List Ev :=
  catMap (niters c) (fun iter => catMap 4 (fun i =>
    let off := (iter * 4 + i) * simd_w
    if off + simd_w ≤ c.iw then [.load (so + off) simd_w]
    else if off < c.iw then [.load (so + off) (c.iw % simd_w)]
    else []))

/-- Store events of `emit_store()` with `reg_ptr_tr_src` at element
offset `to`: `vreg(iter, i)` goes to `to + i*tr_ld + iter*simd_w`. -/
def storeEvs (c : X4Cfg) (src : Nat → ℤ) (so toff : Nat) : List Ev :=
  catMap 4 (fun i => catMap (niters c) (fun iter =>
    [.store (toff + i * c.tr_ld + iter * simd_w) 16 (trOut c src so iter i)]))

/-- All events of one `emit_tr_iw()` call. -/
def emit_tr_iw (c : X4Cfg) (src : Nat → ℤ) (so toff : Nat) : List Ev :=
  loadEvs c so ++ storeEvs c src so toff

/-- The `L(l_ih_loop)` do-while loop from row `r`: one `emit_tr_iw`,
advance `reg_ptr_src` by `iw` and `reg_ptr_tr_src` by
`stride_w * tr_ld` elements, continue while `r + 1 < rend`. -/
def rowLoop (c : X4Cfg) (src : Nat → ℤ) (r rend : Nat) : List Ev :=
  emit_tr_iw c src (r * c.iw) (r * c.stride_w * c.tr_ld)
  ++ (if h : r + 1 < rend then rowLoop c src (r + 1) rend else [])
termination_by rend - r
decreasing_by omega

/-- The event stream of one invocation of the generated code of
`jit_trans_iw_x4_4x_t::generate`: `emit_tr_sync()` (a
`simple_barrier::generate` rendezvous on `nthr_oc_b` participants),
the row loop — skipped entirely when `ih_start = ih_end` — and the
closing `emit_tr_sync()`. -/
def generate (c : X4Cfg) (src : Nat → ℤ) (nthr ih_start ih_end : Nat) :
    List Ev :=
  [.barrier nthr]
  ++ (if ih_start = ih_end then [] else rowLoop c src ih_start ih_end)
  ++ [.barrier nthr]

/-- Destination memory after one invocation of the first-layer kernel. -/
def runX4 (c : X4Cfg) (src : Nat → ℤ) (nthr ih_start ih_end : Nat)
    (m0 : Nat → ℤ) : Nat → ℤ :=
  runEvs (generate c src nthr ih_start ih_end) m0

end JitTransIwX4

/-! ### `create_trans_src` — the dispatcher -/

/-- The convolution-implementation selector consumed by the dispatcher
(declared in `c_types_map.hpp`, outside this translation unit). -/
inductive ConvVersion : Type where
  | ver_unused
  | ver_fma
  | ver_4fma
  | ver_4vnni
deriving DecidableEq

/-- Which kernel class the dispatcher instantiates. -/
inductive TransKernelKind : Type where
  | trans_iw_ic
  | trans_iw_x4_4x
deriving DecidableEq

/-- Outcome of `create_trans_src`: a constructed kernel, or the
process-terminating `assert(!"unsupported configuration")`. -/
inductive DispatchResult : Type where
  | kernel (k : TransKernelKind)
  | assertion_failure
deriving DecidableEq

/-- `create_trans_src(conf)`. -/
def create_trans_src (ver : ConvVersion) (is_1stconv : Bool) : DispatchResult :=
  if ver = ConvVersion.ver_4fma ∧ is_1stconv = false then
    DispatchResult.kernel TransKernelKind.trans_iw_ic
  else if ver = ConvVersion.ver_4fma ∧ is_1stconv = true then
    DispatchResult.kernel TransKernelKind.trans_iw_x4_4x
  else DispatchResult.assertion_failure

/-! ### Locating stores in the generic kernel event stream -/

theorem evWrites_store_eq (off m : Nat) (d : Vec ℤ) (a : Nat) :
    evWrites (.store off m d) a =
      if h : off ≤ a ∧ a < off + min m 16 then some (d ⟨a - off, by omega⟩)
      else none := rfl

theorem evWrites_store_hit (off m : Nat) (d : Vec ℤ) (a j : Nat)
    (hj : a = off + j) (h : j < min m 16) :
    evWrites (.store off m d) a = some (d ⟨j, by omega⟩) := by
  subst hj
  rw [evWrites_store_eq, dif_pos ⟨by omega, by omega⟩]
  have he : (⟨off + j - off, by omega⟩ : Fin 16) = ⟨j, by omega⟩ := by
    simp only [Fin.mk.injEq]
    omega
  rw [he]

theorem evWrites_store_miss (off m : Nat) (d : Vec ℤ) (a : Nat)
    (h : a < off ∨ off + min m 16 ≤ a) :
    evWrites (.store off m d) a = none := by
  rw [evWrites_store_eq, dif_neg (by omega)]

theorem lastWrite_single (e : Ev) (a : Nat) : lastWrite [e] a = evWrites e a := rfl

theorem lastWrite_ite_single (cond : Prop) [Decidable cond] (e : Ev) (a : Nat) :
    lastWrite (if cond then [e] else []) a =
      if cond then evWrites e a else none := by
  split <;> rfl

theorem lastWrite_pfs3 (cond : Prop) [Decidable cond] (a : Nat) :
    lastWrite (if cond then [Ev.pf, Ev.pf, Ev.pf] else []) a = none := by
  split <;> rfl

/-- Rows at pitch `tr_iw`: an address inside row `ch` (at any column
`< tr_iw`) is outside the window `[toff, toff + W)` of any other row. -/
theorem row_window (triw toff W i ch col : Nat) (hW : toff + W ≤ triw)
    (hcol : col < triw) (hne : i ≠ ch) :
    ch * triw + col < i * triw + toff ∨
      i * triw + toff + W ≤ ch * triw + col := by
  rcases Nat.lt_or_ge i ch with h | h
  · right
    have h1 : (i + 1) * triw ≤ ch * triw := Nat.mul_le_mul_right _ (by omega)
    have h2 : (i + 1) * triw = i * triw + triw := Nat.succ_mul i triw
    omega
  · left
    have hgt : ch < i := by omega
    have h1 : (ch + 1) * triw ≤ i * triw := Nat.mul_le_mul_right _ (by omega)
    have h2 : (ch + 1) * triw = ch * triw + triw := Nat.succ_mul ch triw
    omega

namespace JitTransIwIc

/-- The `kTail`-masked data store of `store(r, i)` delivers lane `j` of
the output vector to column `l_pad + j` of destination row `i`. -/
theorem lastWrite_storeCall_data (c : GCfg) (out : Nat → Vec ℤ)
    (toff lp rp tailv mask i j : Nat)
    (hj : j < min mask 16) (hdis : 0 < rp → min mask 16 ≤ tailv) :
    lastWrite (storeCall c out toff lp rp tailv mask i)
        (toff + lp + i * c.tr_iw + j) =
      some (out i ⟨j, by omega⟩) := by
  simp only [storeCall, lastWrite_append, lastWrite_single, lastWrite_ite_single]
  rw [evWrites_store_hit _ _ _ _ j rfl hj]
  have h1 : (if 0 < rp then
      evWrites (.store (toff + lp + tailv + i * c.tr_iw) (min rp 16) (fun _ => 0))
        (toff + lp + i * c.tr_iw + j) else none) = none := by
    split
    · next hrp =>
        exact evWrites_store_miss _ _ _ _ (Or.inl (by have := hdis hrp; omega))
    · rfl
  have h2 : (if 0 < lp then
      evWrites (.store (toff + i * c.tr_iw) (min lp 16) (fun _ => 0))
        (toff + lp + i * c.tr_iw + j) else none) = none := by
    split
    · exact evWrites_store_miss _ _ _ _ (Or.inr (by omega))
    · rfl
  rw [h1, h2, olast_none_right, olast_none_right]

/-- The `r_pad` zero store of `store(r, i)` zeroes columns
`l_pad + tail + p` of destination row `i` for `p < min r_pad 16`. -/
theorem lastWrite_storeCall_rpad (c : GCfg) (out : Nat → Vec ℤ)
    (toff lp rp tailv mask i p : Nat)
    (hrp : 0 < rp) (hp : p < min rp 16) :
    lastWrite (storeCall c out toff lp rp tailv mask i)
        (toff + lp + tailv + i * c.tr_iw + p) =
      some 0 := by
  simp only [storeCall, lastWrite_append, lastWrite_single, lastWrite_ite_single]
  have h1 : (if 0 < rp then
      evWrites (.store (toff + lp + tailv + i * c.tr_iw) (min rp 16) (fun _ => 0))
        (toff + lp + tailv + i * c.tr_iw + p) else none) = some 0 := by
    rw [if_pos hrp, evWrites_store_hit _ _ _ _ p rfl (by omega)]
  have h2 : (if 0 < lp then
      evWrites (.store (toff + i * c.tr_iw) (min lp 16) (fun _ => 0))
        (toff + lp + tailv + i * c.tr_iw + p) else none) = none := by
    split
    · exact evWrites_store_miss _ _ _ _ (Or.inr (by omega))
    · rfl
  rw [h1, h2, olast_some, olast_none_right]

/-- The `l_pad` zero store of `store(r, i)` zeroes columns `p` of
destination row `i` for `p < min l_pad 16`. -/
theorem lastWrite_storeCall_lpad (c : GCfg) (out : Nat → Vec ℤ)
    (toff lp rp tailv mask i p : Nat)
    (hlp : 0 < lp) (hp : p < min lp 16) :
    lastWrite (storeCall c out toff lp rp tailv mask i)
        (toff + i * c.tr_iw + p) =
      some 0 := by
  simp only [storeCall, lastWrite_append, lastWrite_single, lastWrite_ite_single]
  have h2 : (if 0 < lp then
      evWrites (.store (toff + i * c.tr_iw) (min lp 16) (fun _ => 0))
        (toff + i * c.tr_iw + p) else none) = some 0 := by
    rw [if_pos hlp, evWrites_store_hit _ _ _ _ p rfl (by omega)]
  rw [h2, olast_some]

/-- `store(r, i)` touches nothing outside the window
`[toff + i*tr_iw, toff + i*tr_iw + W)` when `W` bounds all three store
ranges. -/
theorem lastWrite_storeCall_none (c : GCfg) (out : Nat → Vec ℤ)
    (toff lp rp tailv mask i a W : Nat)
    (hW1 : lp + min mask 16 ≤ W)
    (hW2 : 0 < rp → lp + tailv + min rp 16 ≤ W)
    (hW3 : min lp 16 ≤ W)
    (hout : a < toff + i * c.tr_iw ∨ toff + i * c.tr_iw + W ≤ a) :
    lastWrite (storeCall c out toff lp rp tailv mask i) a = none := by
  simp only [storeCall, lastWrite_append, lastWrite_single, lastWrite_ite_single]
  have h0 : evWrites (.store (toff + lp + i * c.tr_iw) mask (out i)) a = none :=
    evWrites_store_miss _ _ _ _ (by omega)
  have h1 : (if 0 < rp then
      evWrites (.store (toff + lp + tailv + i * c.tr_iw) (min rp 16) (fun _ => 0))
        a else none) = none := by
    split
    · next hrp =>
        exact evWrites_store_miss _ _ _ _ (by have := hW2 hrp; omega)
    · rfl
  have h2 : (if 0 < lp then
      evWrites (.store (toff + i * c.tr_iw) (min lp 16) (fun _ => 0)) a
      else none) = none := by
    split
    · exact evWrites_store_miss _ _ _ _ (by omega)
    · rfl
  rw [h0, h1, h2, olast_none_right, olast_none_right]

theorem lastWrite_call_pf (sc : List Ev) (cond : Prop) [Decidable cond]
    (a : Nat) :
    lastWrite (sc ++ (if cond then [Ev.pf, Ev.pf, Ev.pf] else [])) a =
      lastWrite sc a := by
  rw [lastWrite_append, lastWrite_pfs3, olast_none_right]

/-- Inside row `ch`, the sixteen `store` calls of `fixup16x16` reduce to
the one for row `ch`. -/
theorem lastWrite_fixup (c : GCfg) (ep : Bool) (out : Nat → Vec ℤ)
    (toff lp rp tailv mask : Nat) (ch : Nat) (hch : ch < 16)
    (a W : Nat)
    (hW1 : lp + min mask 16 ≤ W)
    (hW2 : 0 < rp → lp + tailv + min rp 16 ≤ W)
    (hW3 : min lp 16 ≤ W)
    (hW4 : toff + W ≤ c.tr_iw)
    (ha1 : toff + ch * c.tr_iw ≤ a) (ha2 : a < toff + ch * c.tr_iw + W) :
    lastWrite (fixupEvs c ep out toff lp rp tailv mask) a =
      lastWrite (storeCall c out toff lp rp tailv mask ch) a := by
  have hcol : a = ch * c.tr_iw + (a - ch * c.tr_iw) := by omega
  have hcol1 : toff ≤ a - ch * c.tr_iw := by omega
  have hcol2 : a - ch * c.tr_iw < toff + W := by omega
  have hcoltr : a - ch * c.tr_iw < c.tr_iw := by omega
  have hother : ∀ i, i < 16 → i ≠ ch →
      lastWrite (storeCall c out toff lp rp tailv mask i) a = none := by
    intro i hi hne
    refine lastWrite_storeCall_none c out toff lp rp tailv mask i a W hW1 hW2 hW3 ?_
    have := row_window c.tr_iw toff W i ch (a - ch * c.tr_iw) hW4 hcoltr hne
    omega
  simp only [fixupEvs, lastWrite_append]
  by_cases hc8 : ch < 8
  · have hB : lastWrite (catMap 8 (fun i =>
        storeCall c out toff lp rp tailv mask (8 + i)
        ++ (if i % 2 = 0 ∧ ep = true then [Ev.pf, Ev.pf, Ev.pf] else []))) a
        = none := by
      refine lastWrite_catMap_none 8 _ a (fun j hj => ?_)
      rw [lastWrite_call_pf]
      exact hother (8 + j) (by omega) (by omega)
    have hA : lastWrite (catMap 8 (fun i =>
        storeCall c out toff lp rp tailv mask i
        ++ (if i % 2 = 0 ∧ ep = true then [Ev.pf, Ev.pf, Ev.pf] else []))) a
        = lastWrite (storeCall c out toff lp rp tailv mask ch) a := by
      rw [lastWrite_catMap_single 8 _ a ch hc8 (fun j hj hne => by
        rw [lastWrite_call_pf]
        exact hother j (by omega) hne)]
      rw [lastWrite_call_pf]
    rw [hA, hB, olast_none_right]
  · have hA : lastWrite (catMap 8 (fun i =>
        storeCall c out toff lp rp tailv mask i
        ++ (if i % 2 = 0 ∧ ep = true then [Ev.pf, Ev.pf, Ev.pf] else []))) a
        = none := by
      refine lastWrite_catMap_none 8 _ a (fun j hj => ?_)
      rw [lastWrite_call_pf]
      exact hother j (by omega) (by omega)
    have hB : lastWrite (catMap 8 (fun i =>
        storeCall c out toff lp rp tailv mask (8 + i)
        ++ (if i % 2 = 0 ∧ ep = true then [Ev.pf, Ev.pf, Ev.pf] else []))) a
        = lastWrite (storeCall c out toff lp rp tailv mask ch) a := by
      rw [lastWrite_catMap_single 8 _ a (ch - 8) (by omega) (fun j hj hne => by
        rw [lastWrite_call_pf]
        exact hother (8 + j) (by omega) (by omega))]
      rw [lastWrite_call_pf]
      have h8 : 8 + (ch - 8) = ch := by omega
      rw [h8]
    rw [hA, hB, olast_none_left]

/-- `fixup16x16` touches nothing outside the sixteen row windows. -/
theorem lastWrite_fixup_none (c : GCfg) (ep : Bool) (out : Nat → Vec ℤ)
    (toff lp rp tailv mask : Nat) (a W : Nat)
    (hW1 : lp + min mask 16 ≤ W)
    (hW2 : 0 < rp → lp + tailv + min rp 16 ≤ W)
    (hW3 : min lp 16 ≤ W)
    (hout : ∀ i, i < 16 → a < toff + i * c.tr_iw ∨ toff + i * c.tr_iw + W ≤ a) :
    lastWrite (fixupEvs c ep out toff lp rp tailv mask) a = none := by
  simp only [fixupEvs, lastWrite_append]
  have hA : lastWrite (catMap 8 (fun i =>
      storeCall c out toff lp rp tailv mask i
      ++ (if i % 2 = 0 ∧ ep = true then [Ev.pf, Ev.pf, Ev.pf] else []))) a
      = none := by
    refine lastWrite_catMap_none 8 _ a (fun j hj => ?_)
    rw [lastWrite_call_pf]
    exact lastWrite_storeCall_none c out toff lp rp tailv mask j a W hW1 hW2 hW3
      (hout j (by omega))
  have hB : lastWrite (catMap 8 (fun i =>
      storeCall c out toff lp rp tailv mask (8 + i)
      ++ (if i % 2 = 0 ∧ ep = true then [Ev.pf, Ev.pf, Ev.pf] else []))) a
      = none := by
    refine lastWrite_catMap_none 8 _ a (fun j hj => ?_)
    rw [lastWrite_call_pf]
    exact lastWrite_storeCall_none c out toff lp rp tailv mask (8 + j) a W hW1 hW2 hW3
      (hout (8 + j) (by omega))
  rw [hA, hB, olast_none_right]

/-- Inside row `ch`, one `transpose` call's events reduce to the `store`
call for row `ch`. -/
theorem lastWrite_tileEv (c : GCfg) (ep : Bool) (src : Nat → ℤ)
    (f : RegFile ℤ) (so toff nrows lp rp tailv : Nat) (hn : nrows ≠ 0)
    (ch : Nat) (hch : ch < 16) (a W : Nat)
    (hW1 : lp + min (store_mask nrows tailv) 16 ≤ W)
    (hW2 : 0 < rp → lp + tailv + min rp 16 ≤ W)
    (hW3 : min lp 16 ≤ W)
    (hW4 : toff + W ≤ c.tr_iw)
    (ha1 : toff + ch * c.tr_iw ≤ a) (ha2 : a < toff + ch * c.tr_iw + W) :
    lastWrite (tileEv c ep src f so toff nrows lp rp tailv) a =
      lastWrite (storeCall c (tileOut ep nrows (loadVec src so) f) toff lp rp
        tailv (store_mask nrows tailv) ch) a := by
  rw [tileEv, if_neg hn, lastWrite_append, lastWrite_insEvs, olast_none_left]
  exact lastWrite_fixup c ep _ toff lp rp tailv _ ch hch a W hW1 hW2 hW3 hW4 ha1 ha2

/-- One `transpose` call touches nothing outside its sixteen row
windows. -/
theorem lastWrite_tileEv_none (c : GCfg) (ep : Bool) (src : Nat → ℤ)
    (f : RegFile ℤ) (so toff nrows lp rp tailv : Nat) (a W : Nat)
    (hW1 : lp + min (store_mask nrows tailv) 16 ≤ W)
    (hW2 : 0 < rp → lp + tailv + min rp 16 ≤ W)
    (hW3 : min lp 16 ≤ W)
    (hout : ∀ i, i < 16 → a < toff + i * c.tr_iw ∨ toff + i * c.tr_iw + W ≤ a) :
    lastWrite (tileEv c ep src f so toff nrows lp rp tailv) a = none := by
  by_cases hn : nrows = 0
  · rw [tileEv, if_pos hn, lastWrite_nil]
  · rw [tileEv, if_neg hn, lastWrite_append, lastWrite_insEvs, olast_none_left]
    exact lastWrite_fixup_none c ep _ toff lp rp tailv _ a W hW1 hW2 hW3 hout

end JitTransIwIc

namespace JitTransIwIc

theorem mask_eq_tail (tailv : Nat) (h16 : tailv ≤ 16) :
    store_mask tailv tailv = tailv := by
  simp only [store_mask]
  split <;> omega

theorem mask_eq_full (tailv : Nat) : store_mask 16 tailv = 16 := by
  simp only [store_mask]
  split <;> omega

/-- The tile chain writes nothing at columns left of its first tile. -/
theorem lastWrite_chain_low (c : GCfg) (ep : Bool) (src : Nat → ℤ)
    (tailv rp : Nat) (htail1 : 1 ≤ tailv) (htail16 : tailv ≤ 16) :
    ∀ (n so toff : Nat) (f : RegFile ℤ) (ch col : Nat), ch < 16 → col < toff →
    toff + 16 * n + tailv + min rp 16 ≤ c.tr_iw →
    lastWrite (chain c ep src tailv rp n so toff f) (ch * c.tr_iw + col) = none := by
  intro n
  induction n with
  | zero =>
      intro so toff f ch col hch hcol hcov
      simp only [chain]
      refine lastWrite_tileEv_none c ep src f so toff tailv 0 rp tailv
        (ch * c.tr_iw + col) (tailv + min rp 16) ?_ ?_ ?_ ?_
      · rw [mask_eq_tail tailv htail16]
        omega
      · intro _; omega
      · omega
      · intro i hi
        by_cases hic : i = ch
        · subst hic; left; omega
        · have := row_window c.tr_iw toff (tailv + min rp 16) i ch col
            (by omega) (by omega) hic
          omega
  | succ n ih =>
      intro so toff f ch col hch hcol hcov
      simp only [chain, lastWrite_append]
      have htile : lastWrite (tileEv c ep src f so toff 16 0 0 tailv)
          (ch * c.tr_iw + col) = none := by
        refine lastWrite_tileEv_none c ep src f so toff 16 0 0 tailv
          (ch * c.tr_iw + col) 16 ?_ ?_ ?_ ?_
        · rw [mask_eq_full tailv]; omega
        · intro h; omega
        · omega
        · intro i hi
          by_cases hic : i = ch
          · subst hic; left; omega
          · have := row_window c.tr_iw toff 16 i ch col (by omega) (by omega) hic
            omega
      rw [htile, ih (so + 256) (toff + 16) _ ch col hch (by omega) (by omega),
        olast_none_right]

/-- Data placement of the tile chain: column `toff + i` of row `ch`
receives `src[i*16 + ch]` relative to the chain's source cursor. -/
theorem lastWrite_chain_data (c : GCfg) (ep : Bool) (src : Nat → ℤ)
    (tailv rp : Nat) (htail1 : 1 ≤ tailv) (htail16 : tailv ≤ 16) :
    ∀ (n so toff : Nat) (f : RegFile ℤ) (ch i : Nat), ch < 16 →
    i < 16 * n + tailv →
    toff + 16 * n + tailv + min rp 16 ≤ c.tr_iw →
    lastWrite (chain c ep src tailv rp n so toff f) (ch * c.tr_iw + (toff + i)) =
      some (src (so + i * 16 + ch)) := by
  intro n
  induction n with
  | zero =>
      intro so toff f ch i hch hi hcov
      simp only [chain]
      rw [lastWrite_tileEv c ep src f so toff tailv 0 rp tailv (by omega) ch hch
        (ch * c.tr_iw + (toff + i)) (tailv + min rp 16)
        (by rw [mask_eq_tail tailv htail16]; omega) (fun _ => by omega) (by omega)
        (by omega) (by omega) (by omega)]
      rw [(by omega : ch * c.tr_iw + (toff + i) = toff + 0 + ch * c.tr_iw + i)]
      rw [lastWrite_storeCall_data c _ toff 0 rp tailv _ ch i
        (by rw [mask_eq_tail tailv htail16]; omega)
        (fun _ => by rw [mask_eq_tail tailv htail16]; omega)]
      have hval := tileOut_correct ep tailv htail16 (loadVec src so) f ch i hch
        (by omega)
      rw [hval]
      rfl
  | succ n ih =>
      intro so toff f ch i hch hi hcov
      simp only [chain, lastWrite_append]
      by_cases h16 : i < 16
      · have hrest : lastWrite (chain c ep src tailv rp n (so + 256) (toff + 16)
            (tileAfter ep 16 0 0 (loadVec src so) f)) (ch * c.tr_iw + (toff + i))
            = none :=
          lastWrite_chain_low c ep src tailv rp htail1 htail16 n (so + 256)
            (toff + 16) _ ch (toff + i) hch (by omega) (by omega)
        rw [hrest, olast_none_right]
        rw [lastWrite_tileEv c ep src f so toff 16 0 0 tailv (by omega) ch hch
          (ch * c.tr_iw + (toff + i)) 16
          (by rw [mask_eq_full tailv]; omega) (fun h => by omega) (by omega)
          (by omega) (by omega) (by omega)]
        rw [(by omega : ch * c.tr_iw + (toff + i) = toff + 0 + ch * c.tr_iw + i)]
        rw [lastWrite_storeCall_data c _ toff 0 0 tailv _ ch i
          (by rw [mask_eq_full tailv]; omega) (fun h => by omega)]
        have hval := tileOut_correct ep 16 (by omega) (loadVec src so) f ch i hch
          (by omega)
        rw [hval]
        rfl
      · have haddr : ch * c.tr_iw + (toff + i) =
            ch * c.tr_iw + ((toff + 16) + (i - 16)) := by omega
        rw [haddr, ih (so + 256) (toff + 16) _ ch (i - 16) hch (by omega)
          (by omega)]
        rw [olast_some]
        have : so + 256 + (i - 16) * 16 + ch = so + i * 16 + ch := by
          have h1 : (i - 16) * 16 + 256 = i * 16 := by
            have := Nat.sub_mul i 16 16
            omega
          omega
        rw [this]

/-- Right-pad placement of the tile chain: the final tile zeroes
columns `toff + 16*n + tail + p` of every row for `p < min r_pad 16`. -/
theorem lastWrite_chain_rpad (c : GCfg) (ep : Bool) (src : Nat → ℤ)
    (tailv rp : Nat) (htail1 : 1 ≤ tailv) (htail16 : tailv ≤ 16)
    (hrp : 0 < rp) :
    ∀ (n so toff : Nat) (f : RegFile ℤ) (ch p : Nat), ch < 16 →
    p < min rp 16 →
    toff + 16 * n + tailv + min rp 16 ≤ c.tr_iw →
    lastWrite (chain c ep src tailv rp n so toff f)
        (ch * c.tr_iw + (toff + 16 * n + tailv + p)) = some 0 := by
  intro n
  induction n with
  | zero =>
      intro so toff f ch p hch hp hcov
      simp only [chain]
      rw [lastWrite_tileEv c ep src f so toff tailv 0 rp tailv (by omega) ch hch
        (ch * c.tr_iw + (toff + 16 * 0 + tailv + p)) (tailv + min rp 16)
        (by rw [mask_eq_tail tailv htail16]; omega) (fun _ => by omega) (by omega)
        (by omega) (by omega) (by omega)]
      rw [(by omega : ch * c.tr_iw + (toff + 16 * 0 + tailv + p) =
        toff + 0 + tailv + ch * c.tr_iw + p)]
      exact lastWrite_storeCall_rpad c _ toff 0 rp tailv _ ch p hrp hp
  | succ n ih =>
      intro so toff f ch p hch hp hcov
      simp only [chain, lastWrite_append]
      have htile : lastWrite (tileEv c ep src f so toff 16 0 0 tailv)
          (ch * c.tr_iw + (toff + 16 * (n + 1) + tailv + p)) = none := by
        refine lastWrite_tileEv_none c ep src f so toff 16 0 0 tailv _ 16
          ?_ ?_ ?_ ?_
        · rw [mask_eq_full tailv]; omega
        · intro h; omega
        · omega
        · intro i hi
          by_cases hic : i = ch
          · subst hic; right; omega
          · have := row_window c.tr_iw toff 16 i ch
              (toff + 16 * (n + 1) + tailv + p) (by omega) (by omega) hic
            omega
      rw [htile]
      have haddr : ch * c.tr_iw + (toff + 16 * (n + 1) + tailv + p) =
          ch * c.tr_iw + ((toff + 16) + 16 * n + tailv + p) := by omega
      rw [haddr, ih (so + 256) (toff + 16) _ ch p hch hp (by omega),
        olast_some]

end JitTransIwIc

namespace JitTransIwIc

theorem tail_facts (c : GCfg) (h : 0 < c.iw) :
    1 ≤ tailOf c ∧ tailOf c ≤ 16 ∧ c.iw = 16 * loop_iters c + tailOf c := by
  simp only [tailOf, loop_iters, transpose_size]
  omega

theorem loop_iters_pos (c : GCfg) : 0 < loop_iters c ↔ 16 < c.iw := by
  simp only [loop_iters, transpose_size]
  omega

/-- Data placement of the whole generated program: destination column
`l_pad + i` of channel row `ch` receives `src[i*16 + ch]`. -/
theorem lastWrite_generate_data (c : GCfg) (src : Nat → ℤ) (f0 : RegFile ℤ)
    (hpad : c.l_pad + c.iw ≤ c.tr_iw) (ch i : Nat)
    (hch : ch < 16) (hi : i < c.iw) :
    lastWrite (generate c src f0) (ch * c.tr_iw + (c.l_pad + i)) =
      some (src (i * 16 + ch)) := by
  have hiw : 0 < c.iw := by omega
  obtain ⟨ht1, ht16, hsum⟩ := tail_facts c hiw
  have hrpb : min (right_pad c) 16 ≤ c.tr_iw - c.iw - c.l_pad := by
    simp only [right_pad]; omega
  rw [generate]
  split_ifs with hA hB
  · obtain ⟨hlp, hli⟩ := hA
    have hiw17 : 16 < c.iw := (loop_iters_pos c).mp hli
    rw [lastWrite_append]
    by_cases h16 : i < 16
    · rw [lastWrite_chain_low c (enable_prefetch c) src (tailOf c) (right_pad c)
        ht1 ht16 (loop_iters c - 1) 256 (16 + c.l_pad) _ ch (c.l_pad + i) hch
        (by omega) (by omega), olast_none_right]
      rw [lastWrite_tileEv c (enable_prefetch c) src f0 0 0 16 c.l_pad 0
        (tailOf c) (by omega) ch hch (ch * c.tr_iw + (c.l_pad + i))
        (c.l_pad + 16)
        (by rw [mask_eq_full (tailOf c)]; omega) (fun h => by omega) (by omega)
        (by omega) (by omega) (by omega)]
      rw [(by omega : ch * c.tr_iw + (c.l_pad + i) =
        0 + c.l_pad + ch * c.tr_iw + i)]
      rw [lastWrite_storeCall_data c _ 0 c.l_pad 0 (tailOf c) _ ch i
        (by rw [mask_eq_full (tailOf c)]; omega) (fun h => by omega)]
      have hval := tileOut_correct (enable_prefetch c) 16 (by omega)
        (loadVec src 0) f0 ch i hch (by omega)
      rw [hval]
      simp only [loadVec, Nat.zero_add]
    · rw [(by omega : ch * c.tr_iw + (c.l_pad + i) =
        ch * c.tr_iw + ((16 + c.l_pad) + (i - 16)))]
      rw [lastWrite_chain_data c (enable_prefetch c) src (tailOf c) (right_pad c)
        ht1 ht16 (loop_iters c - 1) 256 (16 + c.l_pad) _ ch (i - 16) hch
        (by omega) (by omega), olast_some]
      have h1 : (i - 16) * 16 + 256 = i * 16 := by
        have := Nat.sub_mul i 16 16
        omega
      rw [(by omega : 256 + (i - 16) * 16 + ch = i * 16 + ch)]
  · have hlp0 : c.l_pad = 0 := by omega
    rw [(by omega : ch * c.tr_iw + (c.l_pad + i) = ch * c.tr_iw + (0 + i))]
    rw [lastWrite_chain_data c (enable_prefetch c) src (tailOf c) (right_pad c)
      ht1 ht16 (loop_iters c) 0 0 f0 ch i hch (by omega) (by omega)]
    rw [(by omega : 0 + i * 16 + ch = i * 16 + ch)]
  · have hli0 : loop_iters c = 0 := by omega
    have htliw : tailOf c = c.iw := by omega
    rw [lastWrite_tileEv c (enable_prefetch c) src f0 0 0 (tailOf c) c.l_pad
      (right_pad c) (tailOf c) (by omega) ch hch
      (ch * c.tr_iw + (c.l_pad + i))
      (c.l_pad + tailOf c + min (right_pad c) 16)
      (by rw [mask_eq_tail (tailOf c) ht16]; omega) (fun h => by omega)
      (by omega) (by omega) (by omega) (by omega)]
    rw [(by omega : ch * c.tr_iw + (c.l_pad + i) =
      0 + c.l_pad + ch * c.tr_iw + i)]
    rw [lastWrite_storeCall_data c _ 0 c.l_pad (right_pad c) (tailOf c) _ ch i
      (by rw [mask_eq_tail (tailOf c) ht16]; omega)
      (fun h => by rw [mask_eq_tail (tailOf c) ht16]; omega)]
    have hval := tileOut_correct (enable_prefetch c) (tailOf c) ht16
      (loadVec src 0) f0 ch i hch (by omega)
    rw [hval]
    simp only [loadVec, Nat.zero_add]

/-- Left-pad placement: destination columns `p < l_pad` of every
channel row are zeroed (the pad mask is 16-bit wide, so this needs
`l_pad ≤ 16`). -/
theorem lastWrite_generate_lpad (c : GCfg) (src : Nat → ℤ) (f0 : RegFile ℤ)
    (hpad : c.l_pad + c.iw ≤ c.tr_iw) (hiw : 0 < c.iw) (hlp16 : c.l_pad ≤ 16)
    (ch p : Nat) (hch : ch < 16) (hp : p < c.l_pad) :
    lastWrite (generate c src f0) (ch * c.tr_iw + p) = some 0 := by
  obtain ⟨ht1, ht16, hsum⟩ := tail_facts c hiw
  have hrpb : min (right_pad c) 16 ≤ c.tr_iw - c.iw - c.l_pad := by
    simp only [right_pad]; omega
  rw [generate]
  split_ifs with hA hB
  · obtain ⟨hlp, hli⟩ := hA
    have hiw17 : 16 < c.iw := (loop_iters_pos c).mp hli
    rw [lastWrite_append]
    rw [lastWrite_chain_low c (enable_prefetch c) src (tailOf c) (right_pad c)
      ht1 ht16 (loop_iters c - 1) 256 (16 + c.l_pad) _ ch p hch
      (by omega) (by omega), olast_none_right]
    rw [lastWrite_tileEv c (enable_prefetch c) src f0 0 0 16 c.l_pad 0
      (tailOf c) (by omega) ch hch (ch * c.tr_iw + p) (c.l_pad + 16)
      (by rw [mask_eq_full (tailOf c)]; omega) (fun h => by omega) (by omega)
      (by omega) (by omega) (by omega)]
    rw [(by omega : ch * c.tr_iw + p = 0 + ch * c.tr_iw + p)]
    exact lastWrite_storeCall_lpad c _ 0 c.l_pad 0 (tailOf c) _ ch p hlp
      (by omega)
  · omega
  · have hli0 : loop_iters c = 0 := by omega
    have htliw : tailOf c = c.iw := by omega
    rw [lastWrite_tileEv c (enable_prefetch c) src f0 0 0 (tailOf c) c.l_pad
      (right_pad c) (tailOf c) (by omega) ch hch (ch * c.tr_iw + p)
      (c.l_pad + tailOf c + min (right_pad c) 16)
      (by rw [mask_eq_tail (tailOf c) ht16]; omega) (fun h => by omega)
      (by omega) (by omega) (by omega) (by omega)]
    rw [(by omega : ch * c.tr_iw + p = 0 + ch * c.tr_iw + p)]
    exact lastWrite_storeCall_lpad c _ 0 c.l_pad (right_pad c) (tailOf c) _ ch p
      (by omega) (by omega)

/-- Right-pad placement: destination columns in `[l_pad + iw, tr_iw)` of
every channel row are zeroed (needs `r_pad ≤ 16`, again because the pad
mask is 16-bit wide). -/
theorem lastWrite_generate_rpad (c : GCfg) (src : Nat → ℤ) (f0 : RegFile ℤ)
    (hpad : c.l_pad + c.iw ≤ c.tr_iw) (hiw : 0 < c.iw)
    (hrp16 : c.tr_iw - c.iw - c.l_pad ≤ 16)
    (ch col : Nat) (hch : ch < 16)
    (hcol1 : c.l_pad + c.iw ≤ col) (hcol2 : col < c.tr_iw) :
    lastWrite (generate c src f0) (ch * c.tr_iw + col) = some 0 := by
  obtain ⟨ht1, ht16, hsum⟩ := tail_facts c hiw
  have hrpv : right_pad c = c.tr_iw - c.iw - c.l_pad := rfl
  have hrpmin : min (right_pad c) 16 = right_pad c := by omega
  have hrppos : 0 < right_pad c := by omega
  have hp : col - (c.l_pad + c.iw) < min (right_pad c) 16 := by omega
  rw [generate]
  split_ifs with hA hB
  · obtain ⟨hlp, hli⟩ := hA
    have hiw17 : 16 < c.iw := (loop_iters_pos c).mp hli
    rw [lastWrite_append]
    have htile : lastWrite (tileEv c (enable_prefetch c) src f0 0 0 16 c.l_pad 0
        (tailOf c)) (ch * c.tr_iw + col) = none := by
      refine lastWrite_tileEv_none c (enable_prefetch c) src f0 0 0 16 c.l_pad 0
        (tailOf c) (ch * c.tr_iw + col) (c.l_pad + 16) ?_ ?_ ?_ ?_
      · rw [mask_eq_full (tailOf c)]; omega
      · intro h; omega
      · omega
      · intro j hj
        by_cases hjc : j = ch
        · subst hjc; right; omega
        · have := row_window c.tr_iw 0 (c.l_pad + 16) j ch col (by omega)
            (by omega) hjc
          omega
    rw [htile, olast_none_left]
    rw [(by omega : ch * c.tr_iw + col =
      ch * c.tr_iw + ((16 + c.l_pad) + 16 * (loop_iters c - 1) + tailOf c +
        (col - (c.l_pad + c.iw))))]
    exact lastWrite_chain_rpad c (enable_prefetch c) src (tailOf c) (right_pad c)
      ht1 ht16 hrppos (loop_iters c - 1) 256 (16 + c.l_pad) _ ch
      (col - (c.l_pad + c.iw)) hch hp (by omega)
  · have hlp0 : c.l_pad = 0 := by omega
    rw [(by omega : ch * c.tr_iw + col =
      ch * c.tr_iw + (0 + 16 * loop_iters c + tailOf c +
        (col - (c.l_pad + c.iw))))]
    exact lastWrite_chain_rpad c (enable_prefetch c) src (tailOf c) (right_pad c)
      ht1 ht16 hrppos (loop_iters c) 0 0 f0 ch (col - (c.l_pad + c.iw)) hch hp
      (by omega)
  · have hli0 : loop_iters c = 0 := by omega
    have htliw : tailOf c = c.iw := by omega
    rw [lastWrite_tileEv c (enable_prefetch c) src f0 0 0 (tailOf c) c.l_pad
      (right_pad c) (tailOf c) (by omega) ch hch (ch * c.tr_iw + col)
      (c.l_pad + tailOf c + min (right_pad c) 16)
      (by rw [mask_eq_tail (tailOf c) ht16]; omega) (fun h => by omega)
      (by omega) (by omega) (by omega) (by omega)]
    rw [(by omega : ch * c.tr_iw + col =
      0 + c.l_pad + tailOf c + ch * c.tr_iw + (col - (c.l_pad + c.iw)))]
    exact lastWrite_storeCall_rpad c _ 0 c.l_pad (right_pad c) (tailOf c) _ ch
      (col - (c.l_pad + c.iw)) hrppos hp

end JitTransIwIc

theorem mem_catMap {β : Type} (x : β) (n : Nat) (g : Nat → List β) (i : Nat)
    (hi : i < n) (hx : x ∈ g i) : x ∈ catMap n g := by
  induction n with
  | zero => omega
  | succ n ih =>
      rw [catMap_succ]
      rcases Nat.lt_or_ge i n with h | h
      · exact List.mem_append.2 (Or.inl (ih h))
      · have hin : i = n := by omega
        subst hin
        exact List.mem_append.2 (Or.inr hx)

theorem mem_catMap_elim {β : Type} (x : β) (n : Nat) (g : Nat → List β)
    (hx : x ∈ catMap n g) : ∃ i, i < n ∧ x ∈ g i := by
  induction n with
  | zero => cases hx
  | succ n ih =>
      rw [catMap_succ] at hx
      rcases List.mem_append.1 hx with h | h
      · obtain ⟨i, hi, hgi⟩ := ih h
        exact ⟨i, by omega, hgi⟩
      · exact ⟨n, by omega, h⟩

theorem mem_ite_nil {β : Type} {x : β} {c : Prop} [Decidable c] {l : List β} :
    x ∈ (if c then l else []) ↔ c ∧ x ∈ l := by
  split
  · next hc => simp [hc]
  · next hc => simp [hc]

namespace JitTransIwIc

/-! ### Prefetch and load instructions of the generic kernel -/

theorem rpf_mem_swap1ins_true (nrows base i : Nat) :
    RIns.rpf ∈ swap1ins true nrows base i := by
  simp [swap1ins]

theorem rpf_mem_tileIns_true (nrows : Nat) :
    RIns.rpf ∈ tileIns true nrows := by
  refine List.mem_append.2 (Or.inl ?_)
  refine List.mem_append.2 (Or.inl (List.mem_append.2 (Or.inl ?_)))
  exact mem_catMap _ 4 _ 0 (by omega) (rpf_mem_swap1ins_true nrows 0 0)

theorem rpf_not_mem_swap1ins_false (nrows base i : Nat) :
    RIns.rpf ∉ swap1ins false nrows base i := by
  simp [swap1ins, mem_ite_nil]

theorem rpf_not_mem_swap2ins_false (base i : Nat) :
    RIns.rpf ∉ swap2ins false base i := by
  simp [swap2ins, mem_ite_nil]

theorem rpf_not_mem_swap4ins_false (base i : Nat) :
    RIns.rpf ∉ swap4ins false base i := by
  simp [swap4ins, mem_ite_nil]

theorem rpf_not_mem_tileIns_false (nrows : Nat) :
    RIns.rpf ∉ tileIns false nrows := by
  intro h
  rcases List.mem_append.1 h with h | h <;>
  · rcases List.mem_append.1 h with h | h
    · rcases List.mem_append.1 h with h | h
      · obtain ⟨i, hi, hmem⟩ := mem_catMap_elim _ 4 _ h
        exact rpf_not_mem_swap1ins_false _ _ i hmem
      · obtain ⟨i, hi, hmem⟩ := mem_catMap_elim _ 4 _ h
        exact rpf_not_mem_swap2ins_false _ i hmem
    · obtain ⟨i, hi, hmem⟩ := mem_catMap_elim _ 4 _ h
      exact rpf_not_mem_swap4ins_false _ i hmem

theorem pf_not_mem_storeCall (c : GCfg) (out : Nat → Vec ℤ)
    (toff lp rp tailv mask i : Nat) :
    Ev.pf ∉ storeCall c out toff lp rp tailv mask i := by
  simp [storeCall, mem_ite_nil]

theorem load_not_mem_storeCall (c : GCfg) (out : Nat → Vec ℤ)
    (toff lp rp tailv mask i off cnt : Nat) :
    Ev.load off cnt ∉ storeCall c out toff lp rp tailv mask i := by
  simp [storeCall, mem_ite_nil]

theorem load_not_mem_fixupEvs (c : GCfg) (ep : Bool) (out : Nat → Vec ℤ)
    (toff lp rp tailv mask off cnt : Nat) :
    Ev.load off cnt ∉ fixupEvs c ep out toff lp rp tailv mask := by
  intro h
  rcases List.mem_append.1 h with h | h <;>
  · obtain ⟨i, hi, hmem⟩ := mem_catMap_elim _ 8 _ h
    rcases List.mem_append.1 hmem with h2 | h2
    · exact load_not_mem_storeCall c out toff lp rp tailv mask _ off cnt h2
    · rcases mem_ite_nil.1 h2 with ⟨_, h3⟩
      simp at h3

theorem pf_not_mem_fixupEvs_false (c : GCfg) (out : Nat → Vec ℤ)
    (toff lp rp tailv mask : Nat) :
    Ev.pf ∉ fixupEvs c false out toff lp rp tailv mask := by
  intro h
  rcases List.mem_append.1 h with h | h <;>
  · obtain ⟨i, hi, hmem⟩ := mem_catMap_elim _ 8 _ h
    rcases List.mem_append.1 hmem with h2 | h2
    · exact pf_not_mem_storeCall c out toff lp rp tailv mask _ h2
    · rcases mem_ite_nil.1 h2 with ⟨⟨_, hc⟩, _⟩
      cases hc

theorem pf_mem_tileEv_true (c : GCfg) (src : Nat → ℤ) (f : RegFile ℤ)
    (so toff nrows lp rp tailv : Nat) (hn : nrows ≠ 0) :
    Ev.pf ∈ tileEv c true src f so toff nrows lp rp tailv := by
  rw [tileEv, if_neg hn]
  exact List.mem_append.2 (Or.inl (pf_mem_insEvs so _ (rpf_mem_tileIns_true nrows)))

theorem pf_not_mem_tileEv_false (c : GCfg) (src : Nat → ℤ) (f : RegFile ℤ)
    (so toff nrows lp rp tailv : Nat) :
    Ev.pf ∉ tileEv c false src f so toff nrows lp rp tailv := by
  rw [tileEv]
  split
  · simp
  · intro h
    rcases List.mem_append.1 h with h | h
    · rcases mem_insEvs so _ _ h with ⟨d, row, hmem, heq⟩ | ⟨hmem, heq⟩
      · cases heq
      · exact rpf_not_mem_tileIns_false _ hmem
    · exact pf_not_mem_fixupEvs_false c _ toff lp rp tailv _ h

theorem pf_mem_chain_true (c : GCfg) (src : Nat → ℤ) (tailv rp : Nat)
    (ht1 : 1 ≤ tailv) :
    ∀ (n so toff : Nat) (f : RegFile ℤ),
    Ev.pf ∈ chain c true src tailv rp n so toff f := by
  intro n
  cases n with
  | zero =>
      intro so toff f
      simp only [chain]
      exact pf_mem_tileEv_true c src f so toff tailv 0 rp tailv (by omega)
  | succ n =>
      intro so toff f
      simp only [chain]
      exact List.mem_append.2 (Or.inl
        (pf_mem_tileEv_true c src f so toff 16 0 0 tailv (by omega)))

theorem pf_not_mem_chain_false (c : GCfg) (src : Nat → ℤ) (tailv rp : Nat) :
    ∀ (n so toff : Nat) (f : RegFile ℤ),
    Ev.pf ∉ chain c false src tailv rp n so toff f := by
  intro n
  induction n with
  | zero =>
      intro so toff f
      simp only [chain]
      exact pf_not_mem_tileEv_false c src f so toff tailv 0 rp tailv
  | succ n ih =>
      intro so toff f h
      simp only [chain] at h
      rcases List.mem_append.1 h with h | h
      · exact pf_not_mem_tileEv_false c src f so toff 16 0 0 tailv h
      · exact ih _ _ _ h

/-- Prefetch instructions are emitted iff `iw > small_spatial`. -/
theorem pf_mem_generate_iff (c : GCfg) (src : Nat → ℤ) (f0 : RegFile ℤ) :
    Ev.pf ∈ generate c src f0 ↔ small_spatial < c.iw := by
  constructor
  · intro h
    by_contra hle
    have hep : enable_prefetch c = false := by
      simp only [enable_prefetch, decide_eq_false_iff_not]
      exact hle
    rw [generate, hep] at h
    split_ifs at h with hA hB
    · rcases List.mem_append.1 h with h | h
      · exact pf_not_mem_tileEv_false c src f0 0 0 16 c.l_pad 0 (tailOf c) h
      · exact pf_not_mem_chain_false c src (tailOf c) (right_pad c) _ _ _ _ h
    · exact pf_not_mem_chain_false c src (tailOf c) (right_pad c) _ _ _ _ h
    · exact pf_not_mem_tileEv_false c src f0 0 0 (tailOf c) c.l_pad
        (right_pad c) (tailOf c) h
  · intro hlt
    have hiw : 0 < c.iw := by
      simp only [small_spatial] at hlt
      omega
    obtain ⟨ht1, ht16, hsum⟩ := tail_facts c hiw
    have hep : enable_prefetch c = true := by
      simp only [enable_prefetch, decide_eq_true_eq]
      exact hlt
    rw [generate, hep]
    split_ifs with hA hB
    · exact List.mem_append.2 (Or.inl
        (pf_mem_tileEv_true c src f0 0 0 16 c.l_pad 0 (tailOf c) (by omega)))
    · exact pf_mem_chain_true c src (tailOf c) (right_pad c) ht1 _ _ _ _
    · exact pf_mem_tileEv_true c src f0 0 0 (tailOf c) c.l_pad (right_pad c)
        (tailOf c) (by omega)

theorem rload_mem_swap1ins (ep : Bool) (nrows base i d r : Nat)
    (hb : base = 0 ∨ base = 8) (hi : i < 4)
    (h : RIns.rload d r ∈ swap1ins ep nrows base i) :
    r < 16 ∧ (r < 2 ∨ r < nrows) := by
  simp [swap1ins, mem_ite_nil] at h
  omega

theorem rload_not_mem_swap2ins (ep : Bool) (base i d r : Nat) :
    RIns.rload d r ∉ swap2ins ep base i := by
  simp [swap2ins, mem_ite_nil]

theorem rload_not_mem_swap4ins (ep : Bool) (base i d r : Nat) :
    RIns.rload d r ∉ swap4ins ep base i := by
  simp [swap4ins, mem_ite_nil]

theorem rload_mem_tileIns (ep : Bool) (nrows d r : Nat)
    (h : RIns.rload d r ∈ tileIns ep nrows) :
    r < 16 ∧ (r < 2 ∨ r < nrows) := by
  have hcore : ∀ base, base = 0 ∨ base = 8 →
      RIns.rload d r ∈ transpose16x8ins ep nrows base →
      r < 16 ∧ (r < 2 ∨ r < nrows) := by
    intro base hb hmem
    rcases List.mem_append.1 hmem with h2 | h2
    · rcases List.mem_append.1 h2 with h3 | h3
      · obtain ⟨i, hi, hm⟩ := mem_catMap_elim _ 4 _ h3
        exact rload_mem_swap1ins ep nrows base i d r hb hi hm
      · obtain ⟨i, hi, hm⟩ := mem_catMap_elim _ 4 _ h3
        exact absurd hm (rload_not_mem_swap2ins ep base i d r)
    · obtain ⟨i, hi, hm⟩ := mem_catMap_elim _ 4 _ h2
      exact absurd hm (rload_not_mem_swap4ins ep base i d r)
  rcases List.mem_append.1 h with h2 | h2
  · exact hcore 0 (Or.inl rfl) h2
  · exact hcore 8 (Or.inr rfl) h2

/-- Every load of one `transpose` call reads a full row of 16 channel
values at `so + r*16`, where `r` is row `0` or `1` (always loaded) or a
row `< nrows`. -/
theorem load_mem_tileEv (c : GCfg) (ep : Bool) (src : Nat → ℤ)
    (f : RegFile ℤ) (so toff nrows lp rp tailv off cnt : Nat)
    (h : Ev.load off cnt ∈ tileEv c ep src f so toff nrows lp rp tailv) :
    cnt = 16 ∧ ∃ r, r < 16 ∧ (r < 2 ∨ r < nrows) ∧ off = so + r * 16 := by
  rw [tileEv] at h
  split at h
  · cases h
  · rcases List.mem_append.1 h with h2 | h2
    · rcases mem_insEvs so _ _ h2 with ⟨d, row, hmem, heq⟩ | ⟨hmem, heq⟩
      · simp only [Ev.load.injEq] at heq
        obtain ⟨heq1, heq2⟩ := heq
        obtain ⟨hr16, hr⟩ := rload_mem_tileIns ep nrows d row hmem
        exact ⟨heq2, row, hr16, hr, heq1⟩
      · cases heq
    · exact absurd h2 (load_not_mem_fixupEvs c ep _ toff lp rp tailv _ off cnt)

theorem chain_load_bound (c : GCfg) (ep : Bool) (src : Nat → ℤ)
    (tailv rp : Nat) (ht2 : 2 ≤ tailv) (ht16 : tailv ≤ 16) :
    ∀ (n so toff : Nat) (f : RegFile ℤ) (off cnt : Nat),
    Ev.load off cnt ∈ chain c ep src tailv rp n so toff f →
    off + cnt ≤ so + 256 * n + 16 * tailv := by
  intro n
  induction n with
  | zero =>
      intro so toff f off cnt h
      simp only [chain] at h
      obtain ⟨hcnt, r, hr16, hr, hoff⟩ := load_mem_tileEv c ep src f so toff
        tailv 0 rp tailv off cnt h
      omega
  | succ n ih =>
      intro so toff f off cnt h
      simp only [chain] at h
      rcases List.mem_append.1 h with h2 | h2
      · obtain ⟨hcnt, r, hr16, hr, hoff⟩ := load_mem_tileEv c ep src f so toff
          16 0 0 tailv off cnt h2
        omega
      · have := ih (so + 256) (toff + 16) _ off cnt h2
        omega

/-- Whenever the final chunk is at least 2 rows wide (`iw % 16 ≠ 1`),
every emitted load stays inside the `iw * 16`-element source extent. -/
theorem generate_load_bound (c : GCfg) (src : Nat → ℤ) (f0 : RegFile ℤ)
    (hmod : c.iw % 16 ≠ 1) (off cnt : Nat)
    (h : Ev.load off cnt ∈ generate c src f0) :
    off + cnt ≤ 16 * c.iw := by
  by_cases hiw0 : c.iw = 0
  · have hli : loop_iters c = 0 := by
      simp only [loop_iters, transpose_size]; omega
    have htl : tailOf c = 0 := by
      simp only [tailOf, loop_iters, transpose_size]; omega
    rw [generate, htl] at h
    rw [if_neg (by omega), if_neg (by omega)] at h
    rw [tileEv, if_pos rfl] at h
    cases h
  · have hiw : 0 < c.iw := by omega
    obtain ⟨ht1, ht16, hsum⟩ := tail_facts c hiw
    have ht2 : 2 ≤ tailOf c := by
      simp only [tailOf, loop_iters, transpose_size] at *
      omega
    rw [generate] at h
    split_ifs at h with hA hB
    · obtain ⟨hlp, hli⟩ := hA
      rcases List.mem_append.1 h with h2 | h2
      · obtain ⟨hcnt, r, hr16, hr, hoff⟩ := load_mem_tileEv c _ src f0 0 0
          16 c.l_pad 0 (tailOf c) off cnt h2
        omega
      · have := chain_load_bound c _ src (tailOf c) (right_pad c) ht2 ht16
          (loop_iters c - 1) 256 (16 + c.l_pad) _ off cnt h2
        omega
    · have := chain_load_bound c _ src (tailOf c) (right_pad c) ht2 ht16
        (loop_iters c) 0 0 f0 off cnt h
      omega
    · obtain ⟨hcnt, r, hr16, hr, hoff⟩ := load_mem_tileEv c _ src f0 0 0
        (tailOf c) c.l_pad (right_pad c) (tailOf c) off cnt h
      omega

/-- The tile chain writes nothing at or beyond `16 * tr_iw`. -/
theorem lastWrite_chain_high (c : GCfg) (ep : Bool) (src : Nat → ℤ)
    (tailv rp : Nat) (htail1 : 1 ≤ tailv) (htail16 : tailv ≤ 16) :
    ∀ (n so toff : Nat) (f : RegFile ℤ) (a : Nat), 16 * c.tr_iw ≤ a →
    toff + 16 * n + tailv + min rp 16 ≤ c.tr_iw →
    lastWrite (chain c ep src tailv rp n so toff f) a = none := by
  intro n
  induction n with
  | zero =>
      intro so toff f a ha hcov
      simp only [chain]
      refine lastWrite_tileEv_none c ep src f so toff tailv 0 rp tailv a
        (tailv + min rp 16) ?_ ?_ ?_ ?_
      · rw [mask_eq_tail tailv htail16]; omega
      · intro _; omega
      · omega
      · intro i hi
        right
        have h1 : i * c.tr_iw ≤ 15 * c.tr_iw := Nat.mul_le_mul_right _ (by omega)
        have h2 : 16 * c.tr_iw = 15 * c.tr_iw + c.tr_iw := by ring
        omega
  | succ n ih =>
      intro so toff f a ha hcov
      simp only [chain, lastWrite_append]
      have htile : lastWrite (tileEv c ep src f so toff 16 0 0 tailv) a = none := by
        refine lastWrite_tileEv_none c ep src f so toff 16 0 0 tailv a 16
          ?_ ?_ ?_ ?_
        · rw [mask_eq_full tailv]; omega
        · intro h; omega
        · omega
        · intro i hi
          right
          have h1 : i * c.tr_iw ≤ 15 * c.tr_iw := Nat.mul_le_mul_right _ (by omega)
          have h2 : 16 * c.tr_iw = 15 * c.tr_iw + c.tr_iw := by ring
          omega
      rw [htile, ih (so + 256) (toff + 16) _ a ha (by omega), olast_none_right]

/-- The generated program writes nothing at or beyond the
`16 * tr_iw`-element destination extent. -/
theorem lastWrite_generate_high (c : GCfg) (src : Nat → ℤ) (f0 : RegFile ℤ)
    (hpad : c.l_pad + c.iw ≤ c.tr_iw) (a : Nat) (ha : 16 * c.tr_iw ≤ a) :
    lastWrite (generate c src f0) a = none := by
  by_cases hiw0 : c.iw = 0
  · have hli : loop_iters c = 0 := by
      simp only [loop_iters, transpose_size]; omega
    have htl : tailOf c = 0 := by
      simp only [tailOf, loop_iters, transpose_size]; omega
    rw [generate, htl]
    rw [if_neg (by omega), if_neg (by omega)]
    rw [tileEv, if_pos rfl]
    rfl
  · have hiw : 0 < c.iw := by omega
    obtain ⟨ht1, ht16, hsum⟩ := tail_facts c hiw
    have hrpb : min (right_pad c) 16 ≤ c.tr_iw - c.iw - c.l_pad := by
      simp only [right_pad]; omega
    have hhi : ∀ toff W, toff + W ≤ c.tr_iw →
        ∀ i, i < 16 → a < toff + i * c.tr_iw ∨ toff + i * c.tr_iw + W ≤ a := by
      intro toff W hcov i hi
      right
      have h1 : i * c.tr_iw ≤ 15 * c.tr_iw := Nat.mul_le_mul_right _ (by omega)
      have h2 : 16 * c.tr_iw = 15 * c.tr_iw + c.tr_iw := by ring
      omega
    rw [generate]
    split_ifs with hA hB
    · obtain ⟨hlp, hli⟩ := hA
      have hiw17 : 16 < c.iw := (loop_iters_pos c).mp hli
      rw [lastWrite_append]
      rw [lastWrite_tileEv_none c _ src f0 0 0 16 c.l_pad 0 (tailOf c) a
        (c.l_pad + 16) (by rw [mask_eq_full (tailOf c)]; omega)
        (fun h => by omega) (by omega) (hhi 0 (c.l_pad + 16) (by omega))]
      rw [lastWrite_chain_high c _ src (tailOf c) (right_pad c) ht1 ht16
        (loop_iters c - 1) 256 (16 + c.l_pad) _ a ha (by omega)]
      rfl
    · exact lastWrite_chain_high c _ src (tailOf c) (right_pad c) ht1 ht16
        (loop_iters c) 0 0 f0 a ha (by omega)
    · exact lastWrite_tileEv_none c _ src f0 0 0 (tailOf c) c.l_pad
        (right_pad c) (tailOf c) a (c.l_pad + tailOf c + min (right_pad c) 16)
        (by rw [mask_eq_tail (tailOf c) ht16]; omega) (fun h => by omega)
        (by omega)
        (hhi 0 (c.l_pad + tailOf c + min (right_pad c) 16) (by omega))

end JitTransIwIc

/-- Load events of an event stream, as `(offset, lane count)` pairs. -/
def loadOffsets : List Ev → List (Nat × Nat)
  | [] => []
  | .load off cnt :: t => (off, cnt) :: loadOffsets t
  | .store _ _ _ :: t => loadOffsets t
  | .pf :: t => loadOffsets t
  | .barrier _ :: t => loadOffsets t

theorem mem_loadOffsets (l : List Ev) (off cnt : Nat) :
    (off, cnt) ∈ loadOffsets l ↔ Ev.load off cnt ∈ l := by
  induction l with
  | nil => simp [loadOffsets]
  | cons e t ih =>
      cases e <;>
        simp [loadOffsets, ih, List.mem_cons, Prod.mk.injEq]

namespace JitTransIwX4

/-! ### First-layer network correctness -/

theorem mapVec_emit_tr {α β : Type} (g : α → β) (v : Nat → Vec α) (i : Nat) :
    mapVec g (emit_tr v i) = emit_tr (fun b => mapVec g (v b)) i := by
  simp only [emit_tr]
  split_ifs <;>
    simp only [mapVec_shuff, mapVec_vpermps]

set_option maxRecDepth 10000 in
/-- Exhaustive check of the 4-way deinterleave on tokens: output
register `i`, lane `l` holds lane `(4*l+i) % 16` of input register
`(4*l+i) / 16`. -/
theorem emit_tr_tok : ∀ (i : Fin 4) (l : Fin 16),
    emit_tr (fun b => (fun m => ((b, m.val) : Nat × Nat))) i.val l =
      ((4 * l.val + i.val) / 16, (4 * l.val + i.val) % 16) := by decide

theorem emit_tr_correct {α : Type} (v : Nat → Vec α) (i : Nat) (hi : i < 4)
    (l : Fin 16) :
    emit_tr v i l =
      v ((4 * l.val + i) / 16) ⟨(4 * l.val + i) % 16, Nat.mod_lt _ (by omega)⟩ := by
  classical
  let g : Nat × Nat → α := fun t =>
    if h : t.2 < 16 then v t.1 ⟨t.2, h⟩ else v 0 0
  have hv : (fun b => mapVec g (fun m => ((b, m.val) : Nat × Nat))) = v := by
    funext b m
    simp only [mapVec, g, m.isLt, dif_pos]
  have key := mapVec_emit_tr g (fun b => (fun m => ((b, m.val) : Nat × Nat))) i
  rw [hv] at key
  have htok := emit_tr_tok ⟨i, hi⟩ l
  calc emit_tr v i l
      = mapVec g (emit_tr (fun b => (fun m => ((b, m.val) : Nat × Nat))) i) l := by
        rw [key]
    _ = g ((4 * l.val + i) / 16, (4 * l.val + i) % 16) := by
        simp only [mapVec]
        rw [htok]
    _ = v ((4 * l.val + i) / 16) ⟨(4 * l.val + i) % 16, Nat.mod_lt _ (by omega)⟩ := by
        simp only [g]
        rw [dif_pos (Nat.mod_lt _ (by omega))]

/-- `emit_load` lane value: `src[so + off + l]` when inside `iw`, else
zero (from the `T_z` zero-filling mask or the `vpxord`). -/
theorem loadVal_eq (c : X4Cfg) (src : Nat → ℤ) (so iter b : Nat) (m : Fin 16) :
    loadVal c src so iter b m =
      if (iter * 4 + b) * simd_w + m.val < c.iw then
        src (so + (iter * 4 + b) * simd_w + m.val)
      else 0 := by
  simp only [loadVal, simd_w]
  have hq : ∃ q, (iter * 4 + b) * 16 = 16 * q := ⟨iter * 4 + b, by ring⟩
  obtain ⟨q, hqe⟩ := hq
  have hm : m.val < 16 := m.isLt
  by_cases h1 : (iter * 4 + b) * 16 + 16 ≤ c.iw
  · rw [if_pos h1]
    show src (so + (iter * 4 + b) * 16 + m.val) = _
    rw [if_pos (by omega)]
  · rw [if_neg h1]
    by_cases h2 : (iter * 4 + b) * 16 < c.iw
    · rw [if_pos h2]
      show (if m.val < c.iw % 16 then src (so + (iter * 4 + b) * 16 + m.val)
        else 0) = _
      by_cases h3 : m.val < c.iw % 16
      · rw [if_pos h3, if_pos (by omega)]
      · rw [if_neg h3, if_neg (by omega)]
    · rw [if_neg h2]
      show (0 : ℤ) = _
      rw [if_neg (by omega)]

/-- The stored vector of the first-layer kernel: output group `k`,
lane `l` is source element `64*iter + 4*l + k` when inside `iw`, else
zero. -/
theorem trOut_eq (c : X4Cfg) (src : Nat → ℤ) (so iter k : Nat) (hk : k < 4)
    (l : Fin 16) :
    trOut c src so iter k l =
      if 64 * iter + 4 * l.val + k < c.iw then
        src (so + (64 * iter + 4 * l.val + k))
      else 0 := by
  rw [trOut, emit_tr_correct _ k hk l, loadVal_eq]
  have hE : (iter * 4 + (4 * l.val + k) / 16) * 16 + (4 * l.val + k) % 16 =
      64 * iter + 4 * l.val + k := by omega
  rcases Nat.lt_or_ge (64 * iter + 4 * l.val + k) c.iw with hlt | hge
  · rw [if_pos (by simp only [simd_w]; omega), if_pos hlt]
    congr 1
    simp only [simd_w]
    omega
  · rw [if_neg (by simp only [simd_w]; omega), if_neg (by omega)]

/-! ### First-layer event placement -/

theorem lastWrite_loadEvs (c : X4Cfg) (so : Nat) (a : Nat) :
    lastWrite (loadEvs c so) a = none := by
  refine lastWrite_catMap_none _ _ a (fun iter hiter => ?_)
  refine lastWrite_catMap_none _ _ a (fun i hi => ?_)
  dsimp only
  split_ifs <;> rfl

theorem load_not_mem_storeEvs (c : X4Cfg) (src : Nat → ℤ) (so toff off cnt : Nat) :
    Ev.load off cnt ∉ storeEvs c src so toff := by
  intro h
  obtain ⟨i, hi, h2⟩ := mem_catMap_elim _ _ _ h
  obtain ⟨iter, hiter, h3⟩ := mem_catMap_elim _ _ _ h2
  simp at h3

theorem barrier_not_mem_emit (c : X4Cfg) (src : Nat → ℤ) (so toff n : Nat) :
    Ev.barrier n ∉ emit_tr_iw c src so toff := by
  intro h
  rcases List.mem_append.1 h with h | h
  · obtain ⟨iter, hiter, h2⟩ := mem_catMap_elim _ _ _ h
    obtain ⟨i, hi, h3⟩ := mem_catMap_elim _ _ _ h2
    dsimp only at h3
    split_ifs at h3 <;> simp at h3
  · obtain ⟨i, hi, h2⟩ := mem_catMap_elim _ _ _ h
    obtain ⟨iter, hiter, h3⟩ := mem_catMap_elim _ _ _ h2
    simp at h3

/-- Every load of `emit_load` stays inside the row's `iw` elements. -/
theorem load_mem_loadEvs (c : X4Cfg) (so off cnt : Nat)
    (h : Ev.load off cnt ∈ loadEvs c so) :
    so ≤ off ∧ off + cnt ≤ so + c.iw := by
  obtain ⟨iter, hiter, h2⟩ := mem_catMap_elim _ _ _ h
  obtain ⟨i, hi, h3⟩ := mem_catMap_elim _ _ _ h2
  have hq : ∃ q, (iter * 4 + i) * 16 = 16 * q := ⟨iter * 4 + i, by ring⟩
  obtain ⟨q, hqe⟩ := hq
  dsimp only at h3
  split_ifs at h3 with hc1 hc2
  · simp only [List.mem_singleton, Ev.load.injEq] at h3
    simp only [simd_w] at *
    omega
  · simp only [List.mem_singleton, Ev.load.injEq] at h3
    simp only [simd_w] at *
    omega
  · cases h3

theorem nit_le (c : X4Cfg) : 16 * niters c ≤ c.tr_ld := by
  simp only [niters, simd_w]
  omega

/-- `emit_store` places `vreg(iter, k)` at
`toff + k*tr_ld + iter*simd_w`. -/
theorem store_mem_storeEvs (c : X4Cfg) (src : Nat → ℤ) (so toff k iter : Nat)
    (hk : k < 4) (hiter : iter < niters c) :
    Ev.store (toff + k * c.tr_ld + iter * simd_w) 16 (trOut c src so iter k) ∈
      storeEvs c src so toff := by
  refine mem_catMap _ 4 _ k hk ?_
  refine mem_catMap _ (niters c) _ iter hiter ?_
  simp

theorem mem_storeEvs (c : X4Cfg) (src : Nat → ℤ) (so toff : Nat) (e : Ev)
    (h : e ∈ storeEvs c src so toff) :
    ∃ k iter, k < 4 ∧ iter < niters c ∧
      e = Ev.store (toff + k * c.tr_ld + iter * simd_w) 16 (trOut c src so iter k) := by
  obtain ⟨k, hk, h2⟩ := mem_catMap_elim _ _ _ h
  obtain ⟨iter, hiter, h3⟩ := mem_catMap_elim _ _ _ h2
  rcases List.mem_singleton.1 h3 with rfl
  exact ⟨k, iter, hk, hiter, rfl⟩

/-- The store of group `k`, lane `j` of one row lands at
`toff + k*tr_ld + j`, and nothing else in that row's `emit_store`
touches that address. -/
theorem lastWrite_storeEvs_hit (c : X4Cfg) (src : Nat → ℤ) (so toff : Nat)
    (k j : Nat) (hk : k < 4) (hj : j < 16 * niters c) :
    lastWrite (storeEvs c src so toff) (toff + k * c.tr_ld + j) =
      some (trOut c src so (j / 16) k ⟨j % 16, Nat.mod_lt _ (by omega)⟩) := by
  have hnit := nit_le c
  rw [storeEvs]
  rw [lastWrite_catMap_single 4 _ _ k hk (fun i hi hne => ?_)]
  · rw [lastWrite_catMap_single (niters c) _ _ (j / 16) (by omega)
      (fun iter hiter hne => ?_)]
    · rw [lastWrite_single]
      refine evWrites_store_hit _ _ _ _ (j % 16) (by simp only [simd_w]; omega)
        (by omega)
    · rw [lastWrite_single]
      refine evWrites_store_miss _ _ _ _ ?_
      simp only [simd_w]
      rcases Nat.lt_or_ge iter (j / 16) with h | h
      · right; omega
      · left; omega
  · refine lastWrite_catMap_none (niters c) _ _ (fun iter hiter => ?_)
    rw [lastWrite_single]
    refine evWrites_store_miss _ _ _ _ ?_
    simp only [simd_w]
    rcases Nat.lt_or_ge i k with h | h
    · right
      have h1 : (i + 1) * c.tr_ld ≤ k * c.tr_ld := Nat.mul_le_mul_right _ (by omega)
      have h2 : (i + 1) * c.tr_ld = i * c.tr_ld + c.tr_ld := Nat.succ_mul i c.tr_ld
      omega
    · left
      have hik : k < i := by omega
      have h1 : (k + 1) * c.tr_ld ≤ i * c.tr_ld := Nat.mul_le_mul_right _ (by omega)
      have h2 : (k + 1) * c.tr_ld = k * c.tr_ld + c.tr_ld := Nat.succ_mul k c.tr_ld
      omega

/-- One row's `emit_store` writes only inside
`[toff, toff + 4*tr_ld)`. -/
theorem lastWrite_storeEvs_none (c : X4Cfg) (src : Nat → ℤ) (so toff a : Nat)
    (hout : a < toff ∨ toff + 4 * c.tr_ld ≤ a) :
    lastWrite (storeEvs c src so toff) a = none := by
  have hnit := nit_le c
  refine lastWrite_catMap_none 4 _ _ (fun i hi => ?_)
  refine lastWrite_catMap_none (niters c) _ _ (fun iter hiter => ?_)
  rw [lastWrite_single]
  refine evWrites_store_miss _ _ _ _ ?_
  simp only [simd_w]
  have h1 : i * c.tr_ld ≤ 3 * c.tr_ld := Nat.mul_le_mul_right _ (by omega)
  rcases hout with h | h
  · left; omega
  · right; omega

theorem lastWrite_emit_hit (c : X4Cfg) (src : Nat → ℤ) (so toff : Nat)
    (k j : Nat) (hk : k < 4) (hj : j < 16 * niters c) :
    lastWrite (emit_tr_iw c src so toff) (toff + k * c.tr_ld + j) =
      some (trOut c src so (j / 16) k ⟨j % 16, Nat.mod_lt _ (by omega)⟩) := by
  rw [emit_tr_iw, lastWrite_append, lastWrite_loadEvs, olast_none_left]
  exact lastWrite_storeEvs_hit c src so toff k j hk hj

theorem lastWrite_emit_none (c : X4Cfg) (src : Nat → ℤ) (so toff a : Nat)
    (hout : a < toff ∨ toff + 4 * c.tr_ld ≤ a) :
    lastWrite (emit_tr_iw c src so toff) a = none := by
  rw [emit_tr_iw, lastWrite_append, lastWrite_loadEvs, olast_none_left]
  exact lastWrite_storeEvs_none c src so toff a hout

end JitTransIwX4

namespace JitTransIwX4

/-! ### The row loop -/

theorem rowLoop_eq (c : X4Cfg) (src : Nat → ℤ) (r rend : Nat) :
    rowLoop c src r rend =
      emit_tr_iw c src (r * c.iw) (r * c.stride_w * c.tr_ld)
      ++ (if r + 1 < rend then rowLoop c src (r + 1) rend else []) := by
  rw [rowLoop, dite_eq_ite]

theorem mul_pitch_mono (c : X4Cfg) (r1 r2 : Nat) (h : r1 ≤ r2) :
    r1 * c.stride_w * c.tr_ld ≤ r2 * c.stride_w * c.tr_ld :=
  Nat.mul_le_mul_right _ (Nat.mul_le_mul_right _ h)

theorem pitch_succ (c : X4Cfg) (r : Nat) :
    (r + 1) * c.stride_w * c.tr_ld =
      r * c.stride_w * c.tr_ld + c.stride_w * c.tr_ld := by
  ring

/-- The row loop started at `r0` writes nothing below row `r0`'s
destination offset. -/
theorem rowLoop_low (c : X4Cfg) (src : Nat → ℤ) :
    ∀ (k r0 rend : Nat), rend ≤ r0 + k + 1 → ∀ a : Nat,
    a < r0 * c.stride_w * c.tr_ld →
    lastWrite (rowLoop c src r0 rend) a = none := by
  intro k
  induction k with
  | zero =>
      intro r0 rend hk a ha
      rw [rowLoop_eq, if_neg (by omega), List.append_nil]
      refine lastWrite_emit_none c src _ _ a (Or.inl ha)
  | succ k ih =>
      intro r0 rend hk a ha
      rw [rowLoop_eq, lastWrite_append]
      rw [lastWrite_emit_none c src _ _ a (Or.inl ha), olast_none_left]
      split
      · refine ih (r0 + 1) rend (by omega) a ?_
        have := mul_pitch_mono c r0 (r0 + 1) (by omega)
        omega
      · rfl

/-- Inside the window of a processed row `r`, the row loop reduces to
row `r`'s `emit_tr_iw` (later rows land strictly higher, earlier rows
strictly lower, given `4 ≤ stride_w`). -/
theorem rowLoop_row (c : X4Cfg) (src : Nat → ℤ) (hsw : 4 ≤ c.stride_w) :
    ∀ (d r0 rend : Nat), r0 + d < rend → ∀ a : Nat,
    (r0 + d) * c.stride_w * c.tr_ld ≤ a →
    a < (r0 + d) * c.stride_w * c.tr_ld + 4 * c.tr_ld →
    lastWrite (rowLoop c src r0 rend) a =
      lastWrite (emit_tr_iw c src ((r0 + d) * c.iw)
        ((r0 + d) * c.stride_w * c.tr_ld)) a := by
  intro d
  induction d with
  | zero =>
      intro r0 rend hr a ha1 ha2
      rw [rowLoop_eq, lastWrite_append]
      have hrest : lastWrite (if r0 + 1 < rend then rowLoop c src (r0 + 1) rend
          else []) a = none := by
        split
        · refine rowLoop_low c src rend (r0 + 1) rend (by omega) a ?_
          have h4 : 4 * c.tr_ld ≤ c.stride_w * c.tr_ld :=
            Nat.mul_le_mul_right _ hsw
          have hs := pitch_succ c r0
          simp only [Nat.add_zero] at ha1 ha2
          omega
        · rfl
      rw [hrest, olast_none_right]
      simp only [Nat.add_zero]
  | succ d ih =>
      intro r0 rend hr a ha1 ha2
      rw [rowLoop_eq, lastWrite_append]
      have hemit : lastWrite (emit_tr_iw c src (r0 * c.iw)
          (r0 * c.stride_w * c.tr_ld)) a = none := by
        refine lastWrite_emit_none c src _ _ a (Or.inr ?_)
        have h4 : 4 * c.tr_ld ≤ c.stride_w * c.tr_ld :=
          Nat.mul_le_mul_right _ hsw
        have hs := pitch_succ c r0
        have hmono := mul_pitch_mono c (r0 + 1) (r0 + d + 1) (by omega)
        have haddr : r0 + (d + 1) = r0 + d + 1 := by omega
        rw [haddr] at ha1
        omega
      rw [hemit, olast_none_left, if_pos (by omega)]
      have haddr : r0 + (d + 1) = (r0 + 1) + d := by omega
      rw [haddr] at ha1 ha2 ⊢
      exact ih (r0 + 1) rend (by omega) a ha1 ha2

/-- The row loop writes only inside the windows of its processed rows
`[r0, rend)` (when at least one row is processed). -/
theorem rowLoop_frame (c : X4Cfg) (src : Nat → ℤ) :
    ∀ (k r0 rend : Nat), rend ≤ r0 + k + 1 → r0 < rend → ∀ a : Nat,
    (∀ r2, r0 ≤ r2 → r2 < rend →
      ¬(r2 * c.stride_w * c.tr_ld ≤ a ∧
        a < r2 * c.stride_w * c.tr_ld + 4 * c.tr_ld)) →
    lastWrite (rowLoop c src r0 rend) a = none := by
  intro k
  induction k with
  | zero =>
      intro r0 rend hk hlt a hout
      rw [rowLoop_eq, if_neg (by omega), List.append_nil]
      refine lastWrite_emit_none c src _ _ a ?_
      have := hout r0 (by omega) hlt
      omega
  | succ k ih =>
      intro r0 rend hk hlt a hout
      rw [rowLoop_eq, lastWrite_append]
      have hemit : lastWrite (emit_tr_iw c src (r0 * c.iw)
          (r0 * c.stride_w * c.tr_ld)) a = none := by
        refine lastWrite_emit_none c src _ _ a ?_
        have := hout r0 (by omega) hlt
        omega
      rw [hemit, olast_none_left]
      split
      · next hc =>
          exact ih (r0 + 1) rend (by omega) hc a
            (fun r2 h1 h2 => hout r2 (by omega) h2)
      · rfl

/-- Every load of the row loop reads inside one processed row's source
extent. -/
theorem rowLoop_loads (c : X4Cfg) (src : Nat → ℤ) :
    ∀ (k r0 rend : Nat), rend ≤ r0 + k + 1 → r0 < rend →
    ∀ off cnt : Nat, Ev.load off cnt ∈ rowLoop c src r0 rend →
    ∃ r2, r0 ≤ r2 ∧ r2 < rend ∧ r2 * c.iw ≤ off ∧
      off + cnt ≤ r2 * c.iw + c.iw := by
  intro k
  induction k with
  | zero =>
      intro r0 rend hk hlt off cnt h
      rw [rowLoop_eq, if_neg (by omega), List.append_nil, emit_tr_iw] at h
      rcases List.mem_append.1 h with h2 | h2
      · obtain ⟨h3, h4⟩ := load_mem_loadEvs c _ off cnt h2
        exact ⟨r0, by omega, hlt, h3, by omega⟩
      · exact absurd h2 (load_not_mem_storeEvs c src _ _ off cnt)
  | succ k ih =>
      intro r0 rend hk hlt off cnt h
      rw [rowLoop_eq] at h
      rcases List.mem_append.1 h with h2 | h2
      · rw [emit_tr_iw] at h2
        rcases List.mem_append.1 h2 with h3 | h3
        · obtain ⟨h4, h5⟩ := load_mem_loadEvs c _ off cnt h3
          exact ⟨r0, by omega, hlt, h4, by omega⟩
        · exact absurd h3 (load_not_mem_storeEvs c src _ _ off cnt)
      · revert h2
        split
        · next hc =>
            intro h2
            obtain ⟨r2, h3, h4, h5, h6⟩ := ih (r0 + 1) rend (by omega) hc
              off cnt h2
            exact ⟨r2, by omega, h4, h5, h6⟩
        · intro h2
          cases h2

/-- No barrier event inside the row loop. -/
theorem rowLoop_no_barrier (c : X4Cfg) (src : Nat → ℤ) :
    ∀ (k r0 rend : Nat), rend ≤ r0 + k + 1 → ∀ n : Nat,
    Ev.barrier n ∉ rowLoop c src r0 rend := by
  intro k
  induction k with
  | zero =>
      intro r0 rend hk n h
      rw [rowLoop_eq, if_neg (by omega), List.append_nil] at h
      exact barrier_not_mem_emit c src _ _ n h
  | succ k ih =>
      intro r0 rend hk n h
      rw [rowLoop_eq] at h
      rcases List.mem_append.1 h with h2 | h2
      · exact barrier_not_mem_emit c src _ _ n h2
      · revert h2
        split
        · next hc => exact fun h2 => ih (r0 + 1) rend (by omega) n h2
        · exact fun h2 => by cases h2

/-- The processed row's `emit_tr_iw` appears as an infix of the row
loop. -/
theorem rowLoop_infix (c : X4Cfg) (src : Nat → ℤ) :
    ∀ (d r0 rend : Nat), r0 + d < rend →
    ∃ l1 l2, rowLoop c src r0 rend =
      l1 ++ emit_tr_iw c src ((r0 + d) * c.iw) ((r0 + d) * c.stride_w * c.tr_ld)
      ++ l2 := by
  intro d
  induction d with
  | zero =>
      intro r0 rend hr
      refine ⟨[], (if r0 + 1 < rend then rowLoop c src (r0 + 1) rend else []), ?_⟩
      rw [rowLoop_eq]
      simp
  | succ d ih =>
      intro r0 rend hr
      obtain ⟨l1, l2, hl⟩ := ih (r0 + 1) rend (by omega)
      refine ⟨emit_tr_iw c src (r0 * c.iw) (r0 * c.stride_w * c.tr_ld) ++ l1,
        l2, ?_⟩
      rw [rowLoop_eq, if_pos (by omega), hl]
      have haddr : r0 + (d + 1) = (r0 + 1) + d := by omega
      rw [haddr]
      simp [List.append_assoc]

end JitTransIwX4

namespace JitTransIwX4

theorem store_not_mem_loadEvs (c : X4Cfg) (so off m : Nat) (d : Vec ℤ) :
    Ev.store off m d ∉ loadEvs c so := by
  intro h
  obtain ⟨iter, hiter, h2⟩ := mem_catMap_elim _ _ _ h
  obtain ⟨i, hi, h3⟩ := mem_catMap_elim _ _ _ h2
  dsimp only at h3
  split_ifs at h3 <;> simp at h3

theorem lastWrite_generate_x4 (c : X4Cfg) (src : Nat → ℤ)
    (nthr s e a : Nat) :
    lastWrite (generate c src nthr s e) a =
      lastWrite (if s = e then [] else rowLoop c src s e) a := by
  have h1 : lastWrite [Ev.barrier nthr] a = none := rfl
  rw [generate, lastWrite_append, lastWrite_append]
  simp only [h1, olast_none_left, olast_none_right]

theorem lastWrite_generate_x4_row (c : X4Cfg) (src : Nat → ℤ)
    (nthr s e : Nat) (hsw : 4 ≤ c.stride_w) (r : Nat)
    (hr1 : s ≤ r) (hr2 : r < e) (a : Nat)
    (ha1 : r * c.stride_w * c.tr_ld ≤ a)
    (ha2 : a < r * c.stride_w * c.tr_ld + 4 * c.tr_ld) :
    lastWrite (generate c src nthr s e) a =
      lastWrite (emit_tr_iw c src (r * c.iw) (r * c.stride_w * c.tr_ld)) a := by
  rw [lastWrite_generate_x4, if_neg (by omega)]
  have hd : s + (r - s) = r := by omega
  have := rowLoop_row c src hsw (r - s) s e (by omega) a
    (by rw [hd]; exact ha1) (by rw [hd]; exact ha2)
  rw [hd] at this
  exact this

theorem mem_generate_x4 (c : X4Cfg) (src : Nat → ℤ) (nthr s e : Nat) (x : Ev)
    (h : x ∈ generate c src nthr s e) :
    x = Ev.barrier nthr ∨
      (s ≠ e ∧ x ∈ rowLoop c src s e) := by
  rw [generate] at h
  rcases List.mem_append.1 h with h2 | h2
  · rcases List.mem_append.1 h2 with h3 | h3
    · exact Or.inl (List.mem_singleton.1 h3)
    · revert h3
      split
      · exact fun h3 => by cases h3
      · next hne => exact fun h3 => Or.inr ⟨hne, h3⟩
  · exact Or.inl (List.mem_singleton.1 h2)

end JitTransIwX4

/-! ### Claim theorems -/

/-- C1: Generic transpose correctness: for every supported shape with
`ic_block = 16` (pinned by the construction-time asserts) and
`l_pad ≥ 0` with non-negative derived right pad
(`l_pad + iw ≤ tr_iw`), and for every spatial position `i < iw` and
channel `ch < 16`, the generated kernel leaves
`dest[ch][i + l_pad] = src[i][ch]`, the channel's destination row at
pitch `tr_iw`. -/
theorem generic_transpose_correct (c : JitTransIwIc.GCfg) (src : Nat → ℤ)
    (f0 : RegFile ℤ) (m0 : Nat → ℤ)
    (hpad : c.l_pad + c.iw ≤ c.tr_iw)
    (ch i : Nat) (hch : ch < 16) (hi : i < c.iw) :
    JitTransIwIc.runGeneric c src f0 m0 (ch * c.tr_iw + (i + c.l_pad)) =
      src (i * 16 + ch) := by
  rw [JitTransIwIc.runGeneric, runEvs_eq,
    (by omega : ch * c.tr_iw + (i + c.l_pad) = ch * c.tr_iw + (c.l_pad + i)),
    JitTransIwIc.lastWrite_generate_data c src f0 hpad ch i hch hi]
  rfl

/-- Witness for C1 at the spec's worked example
`iw = 20, tr_iw = 22, l_pad = 1` (so `r_pad = 1`), channel 2, spatial
position 3. -/
theorem generic_transpose_correct_witness :
    ((1 : Nat) + 20 ≤ 22) ∧
    JitTransIwIc.runGeneric ⟨20, 22, 1⟩ (fun n => (n : ℤ)) (fun _ _ => 0)
      (fun _ => 0) (2 * 22 + (3 + 1)) = (fun n => (n : ℤ)) (3 * 16 + 2) :=
  ⟨by decide,
   generic_transpose_correct ⟨20, 22, 1⟩ (fun n => (n : ℤ)) (fun _ _ => 0)
     (fun _ => 0) (by decide) 2 3 (by decide) (by decide)⟩

/-- C3: Padding zero property: after one full row transpose of the
generic kernel, every destination column in `[0, l_pad)` and in
`[iw + l_pad, tr_iw)` is zero in all 16 channel rows, while the
real-data columns `[l_pad, l_pad + iw)` carry the transposed source —
so the zero-pad stores and the data stores land on disjoint lane
ranges of each destination row.  `l_pad ≤ 16` and `r_pad ≤ 16` reflect
that each pad is written through one 16-bit `kmovw` predicate. -/
theorem generic_padding_zero (c : JitTransIwIc.GCfg) (src : Nat → ℤ)
    (f0 : RegFile ℤ) (m0 : Nat → ℤ)
    (hpad : c.l_pad + c.iw ≤ c.tr_iw) (hiw : 0 < c.iw)
    (hlp16 : c.l_pad ≤ 16) (hrp16 : c.tr_iw - c.iw - c.l_pad ≤ 16)
    (ch : Nat) (hch : ch < 16) :
    (∀ col, col < c.l_pad →
      JitTransIwIc.runGeneric c src f0 m0 (ch * c.tr_iw + col) = 0) ∧
    (∀ col, c.iw + c.l_pad ≤ col → col < c.tr_iw →
      JitTransIwIc.runGeneric c src f0 m0 (ch * c.tr_iw + col) = 0) ∧
    (∀ i, i < c.iw →
      JitTransIwIc.runGeneric c src f0 m0 (ch * c.tr_iw + (c.l_pad + i)) =
        src (i * 16 + ch)) := by
  refine ⟨fun col hcol => ?_, fun col hcol1 hcol2 => ?_, fun i hi => ?_⟩
  · rw [JitTransIwIc.runGeneric, runEvs_eq,
      JitTransIwIc.lastWrite_generate_lpad c src f0 hpad hiw hlp16 ch col hch
        hcol]
    rfl
  · rw [JitTransIwIc.runGeneric, runEvs_eq,
      JitTransIwIc.lastWrite_generate_rpad c src f0 hpad hiw hrp16 ch col hch
        (by omega) hcol2]
    rfl
  · rw [JitTransIwIc.runGeneric, runEvs_eq,
      JitTransIwIc.lastWrite_generate_data c src f0 hpad ch i hch hi]
    rfl

/-- Witness for C3 at `iw = 20, tr_iw = 22, l_pad = 1`, channel 0. -/
theorem generic_padding_zero_witness :
    ((1 : Nat) + 20 ≤ 22) ∧
    ((∀ col, col < (1 : Nat) →
      JitTransIwIc.runGeneric ⟨20, 22, 1⟩ (fun n => (n : ℤ)) (fun _ _ => 0)
        (fun _ => 7) (0 * 22 + col) = 0) ∧
    (∀ col, (20 : Nat) + 1 ≤ col → col < 22 →
      JitTransIwIc.runGeneric ⟨20, 22, 1⟩ (fun n => (n : ℤ)) (fun _ _ => 0)
        (fun _ => 7) (0 * 22 + col) = 0) ∧
    (∀ i, i < (20 : Nat) →
      JitTransIwIc.runGeneric ⟨20, 22, 1⟩ (fun n => (n : ℤ)) (fun _ _ => 0)
        (fun _ => 7) (0 * 22 + (1 + i)) = (fun n => (n : ℤ)) (i * 16 + 0))) :=
  ⟨by decide,
   generic_padding_zero ⟨20, 22, 1⟩ (fun n => (n : ℤ)) (fun _ _ => 0)
     (fun _ => 7) (by decide) (by decide) (by decide) (by decide) 0 (by decide)⟩

set_option maxRecDepth 100000 in
/-- C4 counterexample: with `iw = 1` (tail = 1) the generated code of
the generic kernel unconditionally emits `load(0)` **and** `load(1)`
(`transpose16x8` always loads rows 0 and 1), so it reads the 16
elements at offsets `[16, 32)` even though the source extent is only
`iw * 16 = 16` elements — the claim that no load reads beyond the
source extent is false. -/
theorem generic_tail_oob_read_cx :
    ((16, 16) ∈ loadOffsets
      (JitTransIwIc.generate ⟨1, 1, 0⟩ (fun _ => 0) (fun _ _ => 0))) ∧
    16 * 1 < 16 + 16 := by decide

/-- C4 (amended): the spatial width is tiled in chunks of 16; when
`iw % 16 ≠ 0` the final chunk covers exactly `tail = iw % 16` valid
positions and its data stores use a predicate of exactly `tail` lanes
(`store_mask`); no store ever writes at or beyond the
`16 * tr_iw`-element destination extent; and, **provided the tail is at
least 2 rows wide** (`iw % 16 ≠ 1`), no load reads beyond the
`16 * iw`-element source extent (for `iw % 16 = 1` the kernel always
loads rows 0 and 1 of the final tile, reading one row past the
extent — see the counterexample). -/
theorem generic_tail_safety (c : JitTransIwIc.GCfg) (src : Nat → ℤ)
    (f0 : RegFile ℤ) (m0 : Nat → ℤ)
    (hpad : c.l_pad + c.iw ≤ c.tr_iw) :
    (0 < c.iw → c.iw % 16 ≠ 0 →
      JitTransIwIc.tailOf c = c.iw % 16 ∧
      JitTransIwIc.store_mask (JitTransIwIc.tailOf c) (JitTransIwIc.tailOf c) =
        c.iw % 16) ∧
    (∀ a, 16 * c.tr_iw ≤ a →
      JitTransIwIc.runGeneric c src f0 m0 a = m0 a) ∧
    (c.iw % 16 ≠ 1 → ∀ off cnt,
      Ev.load off cnt ∈ JitTransIwIc.generate c src f0 →
      off + cnt ≤ 16 * c.iw) := by
  refine ⟨fun hiw hmod => ?_, fun a ha => ?_, fun hmod off cnt h => ?_⟩
  · have htl : JitTransIwIc.tailOf c = c.iw % 16 := by
      simp only [JitTransIwIc.tailOf, JitTransIwIc.loop_iters,
        JitTransIwIc.transpose_size]
      omega
    refine ⟨htl, ?_⟩
    rw [JitTransIwIc.mask_eq_tail _ (by omega), htl]
  · rw [JitTransIwIc.runGeneric, runEvs_eq,
      JitTransIwIc.lastWrite_generate_high c src f0 hpad a ha]
    rfl
  · exact JitTransIwIc.generate_load_bound c src f0 hmod off cnt h

/-- Witness for C4 (amended) at `iw = 20, tr_iw = 22, l_pad = 1`. -/
theorem generic_tail_safety_witness :
    ((1 : Nat) + 20 ≤ 22) ∧
    (((0 : Nat) < 20 → (20 : Nat) % 16 ≠ 0 →
      JitTransIwIc.tailOf ⟨20, 22, 1⟩ = 20 % 16 ∧
      JitTransIwIc.store_mask (JitTransIwIc.tailOf ⟨20, 22, 1⟩)
        (JitTransIwIc.tailOf ⟨20, 22, 1⟩) = 20 % 16) ∧
    (∀ a, 16 * 22 ≤ a →
      JitTransIwIc.runGeneric ⟨20, 22, 1⟩ (fun n => (n : ℤ)) (fun _ _ => 0)
        (fun _ => 7) a = (fun _ => (7 : ℤ)) a) ∧
    ((20 : Nat) % 16 ≠ 1 → ∀ off cnt,
      Ev.load off cnt ∈ JitTransIwIc.generate ⟨20, 22, 1⟩ (fun n => (n : ℤ))
        (fun _ _ => 0) →
      off + cnt ≤ 16 * 20)) :=
  ⟨by decide,
   generic_tail_safety ⟨20, 22, 1⟩ (fun n => (n : ℤ)) (fun _ _ => 0)
     (fun _ => 7) (by decide)⟩

/-- C5: Dispatcher selection: `create_trans_src` returns the generic
kernel exactly for `ver_4fma` with `is_1stconv = false`, the
first-layer kernel exactly for `ver_4fma` with `is_1stconv = true`,
and for every other `ver` it hits
`assert(!"unsupported configuration")` (modelled as
`assertion_failure`) rather than returning an error value. -/
theorem create_trans_src_cases (ver : ConvVersion) (b : Bool) :
    (create_trans_src ver b = .kernel .trans_iw_ic ↔
      ver = .ver_4fma ∧ b = false) ∧
    (create_trans_src ver b = .kernel .trans_iw_x4_4x ↔
      ver = .ver_4fma ∧ b = true) ∧
    (create_trans_src ver b = .assertion_failure ↔ ver ≠ .ver_4fma) := by
  cases ver <;> cases b <;> decide

/-- C8: Prefetch gating: the generic kernel's event stream contains a
software prefetch hint iff `iw` exceeds `small_spatial = 14`; in
particular for `iw ≤ small_spatial` not a single prefetch instruction
is emitted.  (`enable_prefetch` is the member the emitter tests.) -/
theorem generic_prefetch_gating (c : JitTransIwIc.GCfg) (src : Nat → ℤ)
    (f0 : RegFile ℤ) :
    (Ev.pf ∈ JitTransIwIc.generate c src f0 ↔
      JitTransIwIc.small_spatial < c.iw) ∧
    (JitTransIwIc.enable_prefetch c = true ↔
      JitTransIwIc.small_spatial < c.iw) :=
  ⟨JitTransIwIc.pf_mem_generate_iff c src f0,
   by simp [JitTransIwIc.enable_prefetch]⟩

/-- C2: First-layer transpose correctness: for every processed row `r`
and every stored position, group `k`, column `j`: positions with
`4j + k < iw` receive `src[row][4j + k]` (in particular all
`j < iw / 4`), and every stored position whose source index `4j + k`
is `≥ iw` holds zero (from the masked zero-filling or all-zero tile
loads).  Supported shapes have `4 ≤ stride_w` (so row regions are
disjoint), `niters = tr_ld / 16 ≤ 4` (the `[bwd_w:tr_src:r1]` assert)
and a destination wide enough to hold the row
(`iw ≤ 64 * niters`). -/
theorem firstlayer_transpose_correct (c : JitTransIwX4.X4Cfg)
    (src : Nat → ℤ) (nthr ih_start ih_end : Nat) (m0 : Nat → ℤ)
    (hsw : 4 ≤ c.stride_w) (hnit4 : JitTransIwX4.niters c ≤ 4)
    (hcov : c.iw ≤ 64 * JitTransIwX4.niters c)
    (r : Nat) (hr1 : ih_start ≤ r) (hr2 : r < ih_end)
    (k j : Nat) (hk : k < 4) :
    (j < c.iw / 4 →
      JitTransIwX4.runX4 c src nthr ih_start ih_end m0
        (r * c.stride_w * c.tr_ld + k * c.tr_ld + j) =
        src (r * c.iw + (4 * j + k))) ∧
    (j < 16 * JitTransIwX4.niters c → c.iw ≤ 4 * j + k →
      JitTransIwX4.runX4 c src nthr ih_start ih_end m0
        (r * c.stride_w * c.tr_ld + k * c.tr_ld + j) = 0) := by
  have hnit := JitTransIwX4.nit_le c
  have hkey : ∀ hj : j < 16 * JitTransIwX4.niters c,
      JitTransIwX4.runX4 c src nthr ih_start ih_end m0
        (r * c.stride_w * c.tr_ld + k * c.tr_ld + j) =
      (if 64 * (j / 16) + 4 * (j % 16) + k < c.iw then
        src (r * c.iw + (64 * (j / 16) + 4 * (j % 16) + k)) else 0) := by
    intro hj
    have h3 : k * c.tr_ld ≤ 3 * c.tr_ld := Nat.mul_le_mul_right _ (by omega)
    rw [JitTransIwX4.runX4, runEvs_eq,
      JitTransIwX4.lastWrite_generate_x4_row c src nthr ih_start ih_end hsw r
        hr1 hr2 _ (by omega) (by omega),
      JitTransIwX4.lastWrite_emit_hit c src (r * c.iw)
        (r * c.stride_w * c.tr_ld) k j hk hj]
    rw [Option.getD_some,
      JitTransIwX4.trOut_eq c src (r * c.iw) (j / 16) k hk
        ⟨j % 16, Nat.mod_lt _ (by omega)⟩]
  constructor
  · intro hj4
    have hj : j < 16 * JitTransIwX4.niters c := by omega
    rw [hkey hj, if_pos (by omega)]
    congr 1
    omega
  · intro hj hge
    rw [hkey hj, if_neg (by omega)]

/-- Witness for C2 at `iw = 4, tr_ld = 16, stride_w = 4`, rows
`[0, 1)`, row 0, group 1, column 0. -/
theorem firstlayer_transpose_correct_witness :
    ((4 : Nat) ≤ 4 ∧ JitTransIwX4.niters ⟨4, 16, 4⟩ ≤ 4 ∧
      (4 : Nat) ≤ 64 * JitTransIwX4.niters ⟨4, 16, 4⟩ ∧ (0 : Nat) ≤ 0 ∧
      (0 : Nat) < 1 ∧ (1 : Nat) < 4) ∧
    ((0 < (4 : Nat) / 4 →
      JitTransIwX4.runX4 ⟨4, 16, 4⟩ (fun n => (n : ℤ)) 2 0 1 (fun _ => 7)
        (0 * 4 * 16 + 1 * 16 + 0) = (fun n => (n : ℤ)) (0 * 4 + (4 * 0 + 1))) ∧
    (0 < 16 * JitTransIwX4.niters ⟨4, 16, 4⟩ → (4 : Nat) ≤ 4 * 0 + 1 →
      JitTransIwX4.runX4 ⟨4, 16, 4⟩ (fun n => (n : ℤ)) 2 0 1 (fun _ => 7)
        (0 * 4 * 16 + 1 * 16 + 0) = 0)) :=
  ⟨by decide,
   firstlayer_transpose_correct ⟨4, 16, 4⟩ (fun n => (n : ℤ)) 2 0 1
     (fun _ => 7) (by decide) (by decide) (by decide) 0 (by decide) (by decide)
     1 0 (by decide)⟩

/-- C6: Barrier bracketing of the first-layer kernel: every invocation's
event stream is exactly one rendezvous on the shared barrier context
(waiting for the `nthr_oc_b` loaded from the invocation context),
followed by barrier-free per-row transpose work, followed by one more
rendezvous immediately before returning. -/
theorem firstlayer_barrier_bracketing (c : JitTransIwX4.X4Cfg)
    (src : Nat → ℤ) (nthr ih_start ih_end : Nat) :
    ∃ mid, JitTransIwX4.generate c src nthr ih_start ih_end =
      Ev.barrier nthr :: (mid ++ [Ev.barrier nthr]) ∧
      ∀ n, Ev.barrier n ∉ mid := by
  refine ⟨if ih_start = ih_end then [] else
    JitTransIwX4.rowLoop c src ih_start ih_end, rfl, ?_⟩
  intro n h
  by_cases hse : ih_start = ih_end
  · rw [if_pos hse] at h
    cases h
  · rw [if_neg hse] at h
    exact JitTransIwX4.rowLoop_no_barrier c src ih_end ih_start ih_end
      (by omega) n h

/-- C9: Empty-range edge case: with `ih_start = ih_end` the generated
first-layer kernel performs the two barrier rendezvous and nothing
else — its whole event stream is the two barriers, so not a single
source byte is read nor destination byte written. -/
theorem firstlayer_empty_range (c : JitTransIwX4.X4Cfg) (src : Nat → ℤ)
    (nthr s : Nat) :
    JitTransIwX4.generate c src nthr s s =
      [Ev.barrier nthr, Ev.barrier nthr] := by
  rw [JitTransIwX4.generate, if_pos rfl]
  rfl

/-- C7: Row-range framing of the first-layer kernel: every load reads
inside `[ih_start * iw, ih_end * iw)`, and destination memory in the
pitch-`stride_w * tr_ld` slab of any row outside `[ih_start, ih_end)`
is left unchanged (row slabs are well-defined thanks to
`4 ≤ stride_w`). -/
theorem firstlayer_row_framing (c : JitTransIwX4.X4Cfg) (src : Nat → ℤ)
    (nthr ih_start ih_end : Nat) (m0 : Nat → ℤ)
    (hsw : 4 ≤ c.stride_w) (hse : ih_start ≤ ih_end) :
    (∀ off cnt, Ev.load off cnt ∈ JitTransIwX4.generate c src nthr ih_start
        ih_end →
      ih_start * c.iw ≤ off ∧ off + cnt ≤ ih_end * c.iw) ∧
    (∀ r a, (r < ih_start ∨ ih_end ≤ r) →
      r * c.stride_w * c.tr_ld ≤ a → a < (r + 1) * c.stride_w * c.tr_ld →
      JitTransIwX4.runX4 c src nthr ih_start ih_end m0 a = m0 a) := by
  constructor
  · intro off cnt h
    rcases JitTransIwX4.mem_generate_x4 c src nthr ih_start ih_end _ h with
      heq | ⟨hne, hmem⟩
    · cases heq
    · obtain ⟨r2, h1, h2, h3, h4⟩ := JitTransIwX4.rowLoop_loads c src ih_end
        ih_start ih_end (by omega) (by omega) off cnt hmem
      have hm1 : ih_start * c.iw ≤ r2 * c.iw := Nat.mul_le_mul_right _ h1
      have hm2 : (r2 + 1) * c.iw ≤ ih_end * c.iw := Nat.mul_le_mul_right _
        (by omega)
      have hm3 : (r2 + 1) * c.iw = r2 * c.iw + c.iw := Nat.succ_mul r2 c.iw
      exact ⟨by omega, by omega⟩
  · intro r a hout ha1 ha2
    rw [JitTransIwX4.runX4, runEvs_eq, JitTransIwX4.lastWrite_generate_x4]
    by_cases hse2 : ih_start = ih_end
    · rw [if_pos hse2, lastWrite_nil]
      rfl
    · rw [if_neg hse2]
      rw [JitTransIwX4.rowLoop_frame c src ih_end ih_start ih_end (by omega)
        (by omega) a ?_]
      · rfl
      · intro r2 hge hlt hin
        have h4 : 4 * c.tr_ld ≤ c.stride_w * c.tr_ld :=
          Nat.mul_le_mul_right _ hsw
        rcases hout with hr | hr
        · have hne : r < r2 := by omega
          have hm : (r + 1) * c.stride_w * c.tr_ld ≤
              r2 * c.stride_w * c.tr_ld :=
            JitTransIwX4.mul_pitch_mono c (r + 1) r2 (by omega)
          omega
        · have hne : r2 < r := by omega
          have hs := JitTransIwX4.pitch_succ c r2
          have hm : (r2 + 1) * c.stride_w * c.tr_ld ≤
              r * c.stride_w * c.tr_ld :=
            JitTransIwX4.mul_pitch_mono c (r2 + 1) r (by omega)
          omega

/-- Witness for C7 at `iw = 4, tr_ld = 16, stride_w = 4`, rows
`[0, 1)`. -/
theorem firstlayer_row_framing_witness :
    ((4 : Nat) ≤ 4 ∧ (0 : Nat) ≤ 1) ∧
    ((∀ off cnt, Ev.load off cnt ∈ JitTransIwX4.generate ⟨4, 16, 4⟩
        (fun n => (n : ℤ)) 2 0 1 →
      0 * 4 ≤ off ∧ off + cnt ≤ 1 * 4) ∧
    (∀ r a, (r < (0 : Nat) ∨ (1 : Nat) ≤ r) →
      r * 4 * 16 ≤ a → a < (r + 1) * 4 * 16 →
      JitTransIwX4.runX4 ⟨4, 16, 4⟩ (fun n => (n : ℤ)) 2 0 1 (fun _ => 7) a =
        (fun _ => (7 : ℤ)) a)) :=
  ⟨by decide,
   firstlayer_row_framing ⟨4, 16, 4⟩ (fun n => (n : ℤ)) 2 0 1 (fun _ => 7)
     (by decide) (by decide)⟩

/-- C10: First-layer addressing: each processed row `r` contributes an
`emit_tr_iw` block to the event stream; within it, the row's source is
read at element offsets `[r*iw, r*iw + iw)`, and group `k` is stored
starting at element offset `r * stride_w * tr_ld + k * tr_ld` — the
destination row pitch is `stride_w * tr_ld` elements, not
`4 * tr_ld`. -/
theorem firstlayer_addressing (c : JitTransIwX4.X4Cfg) (src : Nat → ℤ)
    (nthr ih_start ih_end : Nat) (hse : ih_start ≤ ih_end)
    (r : Nat) (hr1 : ih_start ≤ r) (hr2 : r < ih_end) :
    (∃ l1 l2, JitTransIwX4.generate c src nthr ih_start ih_end =
      l1 ++ JitTransIwX4.emit_tr_iw c src (r * c.iw)
        (r * c.stride_w * c.tr_ld) ++ l2) ∧
    (∀ k iter, k < 4 → iter < JitTransIwX4.niters c →
      Ev.store (r * c.stride_w * c.tr_ld + k * c.tr_ld +
          iter * JitTransIwX4.simd_w) 16
        (JitTransIwX4.trOut c src (r * c.iw) iter k) ∈
        JitTransIwX4.emit_tr_iw c src (r * c.iw) (r * c.stride_w * c.tr_ld)) ∧
    (∀ off m d, Ev.store off m d ∈ JitTransIwX4.emit_tr_iw c src (r * c.iw)
        (r * c.stride_w * c.tr_ld) →
      ∃ k iter, k < 4 ∧ iter < JitTransIwX4.niters c ∧
        off = r * c.stride_w * c.tr_ld + k * c.tr_ld +
          iter * JitTransIwX4.simd_w) ∧
    (∀ off cnt, Ev.load off cnt ∈ JitTransIwX4.emit_tr_iw c src (r * c.iw)
        (r * c.stride_w * c.tr_ld) →
      r * c.iw ≤ off ∧ off + cnt ≤ r * c.iw + c.iw) := by
  refine ⟨?_, ?_, ?_, ?_⟩
  · obtain ⟨l1, l2, hl⟩ := JitTransIwX4.rowLoop_infix c src (r - ih_start)
      ih_start ih_end (by omega)
    have hd : ih_start + (r - ih_start) = r := by omega
    rw [hd] at hl
    refine ⟨Ev.barrier nthr :: l1, l2 ++ [Ev.barrier nthr], ?_⟩
    rw [JitTransIwX4.generate, if_neg (by omega), hl]
    simp [List.append_assoc]
  · intro k iter hk hiter
    exact List.mem_append.2 (Or.inr
      (JitTransIwX4.store_mem_storeEvs c src (r * c.iw)
        (r * c.stride_w * c.tr_ld) k iter hk hiter))
  · intro off m d h
    rcases List.mem_append.1 h with h2 | h2
    · exact absurd h2 (JitTransIwX4.store_not_mem_loadEvs c _ off m d)
    · obtain ⟨k, iter, hk, hiter, heq⟩ := JitTransIwX4.mem_storeEvs c src _ _
        _ h2
      simp only [Ev.store.injEq] at heq
      exact ⟨k, iter, hk, hiter, heq.1⟩
  · intro off cnt h
    rcases List.mem_append.1 h with h2 | h2
    · obtain ⟨h3, h4⟩ := JitTransIwX4.load_mem_loadEvs c _ off cnt h2
      exact ⟨h3, h4⟩
    · exact absurd h2 (JitTransIwX4.load_not_mem_storeEvs c src _ _ off cnt)

/-- Witness for C10 at `iw = 4, tr_ld = 16, stride_w = 4`, rows
`[0, 2)`, row 1. -/
theorem firstlayer_addressing_witness :
    ((0 : Nat) ≤ 2 ∧ (0 : Nat) ≤ 1 ∧ (1 : Nat) < 2) ∧
    (∃ l1 l2, JitTransIwX4.generate ⟨4, 16, 4⟩ (fun n => (n : ℤ)) 2 0 2 =
      l1 ++ JitTransIwX4.emit_tr_iw ⟨4, 16, 4⟩ (fun n => (n : ℤ)) (1 * 4)
        (1 * 4 * 16) ++ l2) :=
  ⟨by decide,
   (firstlayer_addressing ⟨4, 16, 4⟩ (fun n => (n : ℤ)) 2 0 2 (by decide) 1
     (by decide) (by decide)).1⟩
